import Mathlib

/-!
Verification of the camera-pose canonicalization pipeline
(`gerry00_canonicalize_camera_poses.ipynb`).

The development shallowly embeds the numeric core of the notebook:

* duplicate detection and removal over the pairwise translation-distance
  matrix (cells 8 and 9),
* big-circle selection and the analytic reference ring (cell 9),
* assembly of the 4x4 similarity transform and its application to every
  pose (cell 10),
* the vectorized per-camera subject-height estimate and vertical
  re-centering (cell 17),
* the field-of-view rescale (cell 20),
* the Umeyama-style similarity fit `ICP_transform_with_scale`, whose
  definition is not part of the repository snapshot and is therefore
  modelled from the specification.

Real-number arithmetic replaces floating point; comparisons of distances
are mediated through square roots exactly as the code computes them.
-/

open scoped Classical

noncomputable section

namespace Canon

/-! ## Basic types -/

abbrev Vec3 := Fin 3 → ℝ

abbrev Mat3 := Matrix (Fin 3) (Fin 3) ℝ

abbrev Mat4 := Matrix (Fin 4) (Fin 4) ℝ

/-! ## Duplicate filter: combinatorial core (cell 9)

`np.argwhere(dists < thresh)` lists the flagged index pairs in row-major
order; the loop `for _, dup in filter(lambda dup: dup[0] < dup[1], duplicates):
to_take.remove(dup)` keeps only the pairs with `i < j` and removes the bigger
index from the running list.  Python's `list.remove` raises `ValueError` when
the element is absent, which we model with `Option`. -/

/-- All index pairs `(i, j)` with `i < j < n` and `flag i j`, in the row-major
order produced by `np.argwhere` after the `dup[0] < dup[1]` filter. -/
def pairList (n : ℕ) (flag : ℕ → ℕ → Bool) : List (ℕ × ℕ) :=
  ((List.range n).flatMap fun i => (List.range n).map fun j => (i, j)).filter
    fun p => flag p.1 p.2 && decide (p.1 < p.2)

/-- Python's `list.remove`: drop the first occurrence of `a`, or fail
(`ValueError`) when `a` is absent. -/
def removeFirst : List ℕ → ℕ → Option (List ℕ)
  | [], _ => none
  | x :: xs, a => if x = a then some xs else (removeFirst xs a).map (x :: ·)

/-- Run `to_take.remove(dup)` for the second component of every pair in
sequence, propagating the `ValueError` failure. -/
def runRemovals (l : List ℕ) : List (ℕ × ℕ) → Option (List ℕ)
  | [] => some l
  | (_, j) :: rest =>
    match removeFirst l j with
    | none => none
    | some l2 => runRemovals l2 rest

/-- The duplicate-removal loop of cell 9: start from `list(range(len(frames)))`
and remove the higher index of every flagged pair. -/
def toTake (n : ℕ) (flag : ℕ → ℕ → Bool) : Option (List ℕ) :=
  runRemovals (List.range n) (pairList n flag)

/-- Indices that survive duplicate removal: those that are not the higher
index of any flagged pair. -/
def keptList (n : ℕ) (flag : ℕ → ℕ → Bool) : List ℕ :=
  (List.range n).filter fun j => !((List.range j).any fun i => flag i j)

/-- Cell 9's validation `assert len(to_take) == 48`. -/
def checkCardinality (l : List ℕ) : Option (List ℕ) :=
  if l.length = 48 then some l else none

/-! ## Pairwise distances and the duplicate threshold (cell 8)

`dists = np.sqrt(np.sum(np.square(ts[:,:,None] - ts.T[None,:,:]), axis=1))`,
then `dists /= np.max(dists)`, then `np.fill_diagonal(dists, 1)`, and a pair
is flagged when the normalized entry is `< np.pi * (15/360) / 2`. -/

/-- Squared Euclidean distance between two translation vectors, as the sum of
squared coordinate differences computed by the notebook. -/
def sqDist3 (a b : Vec3) : ℝ :=
  (a 0 - b 0) ^ 2 + (a 1 - b 1) ^ 2 + (a 2 - b 2) ^ 2

/-- Euclidean distance, `np.sqrt` of the squared distance. -/
def dist3 (a b : Vec3) : ℝ :=
  Real.sqrt (sqDist3 a b)

/-- Maximum entry of the full pairwise distance matrix over the first `n`
points (`np.max(dists)`); `0` for an empty set. -/
def maxDist (n : ℕ) (pts : ℕ → Vec3) : ℝ :=
  if h : 0 < n then
    (Finset.range n ×ˢ Finset.range n).sup'
      (Finset.nonempty_product.2
        ⟨⟨0, Finset.mem_range.2 h⟩, ⟨0, Finset.mem_range.2 h⟩⟩)
      fun p => dist3 (pts p.1) (pts p.2)
  else 0

/-- Entry `(i, j)` of the distance matrix after normalization by its maximum
and after `np.fill_diagonal(dists, 1)`. -/
def normDist (n : ℕ) (pts : ℕ → Vec3) (i j : ℕ) : ℝ :=
  if i = j then 1 else dist3 (pts i) (pts j) / maxDist n pts

/-- The duplicate threshold `np.pi * (15/360) / 2`: the chord-length bound for
half of the expected 15-degree nearest-neighbor spacing. -/
def dupThreshold : ℝ :=
  Real.pi * (15 / 360) / 2

/-- Two indices are flagged as duplicates when the normalized, diagonal-filled
distance matrix entry is below the threshold (`dists < np.pi * (15/360)/2`). -/
def flaggedR (n : ℕ) (pts : ℕ → Vec3) (i j : ℕ) : Prop :=
  normDist n pts i j < dupThreshold

/-- Boolean form of `flaggedR`, fed to the removal loop. -/
def flagB (n : ℕ) (pts : ℕ → Vec3) : ℕ → ℕ → Bool :=
  fun i j => decide (flaggedR n pts i j)

/-- Duplicate removal followed by the cardinality assertion of cell 9; `none`
models the `AssertionError` / `ValueError` aborts. -/
def dedupValidated (n : ℕ) (pts : ℕ → Vec3) : Option (List ℕ) :=
  (toTake n (flagB n pts)).bind checkCardinality

/-! ## Big-circle selection and the reference ring (cell 9) -/

/-- Cell 9's choice of the bigger circle:
`if dists[to_take[0], to_take[11]] > dists[to_take[24], to_take[35]]:
big_circle = to_take[:24] else: big_circle = to_take[24:]`. -/
def bigCircle (n : ℕ) (pts : ℕ → Vec3) (tk : List ℕ) : List ℕ :=
  if normDist n pts (tk.getD 0 0) (tk.getD 11 0) >
      normDist n pts (tk.getD 24 0) (tk.getD 35 0) then
    tk.take 24
  else
    tk.drop 24

/-- Nearest-neighbor spacing of a 24-point group: the smallest pairwise
distance between two distinct members. -/
def nnSpacing (q : Fin 24 → Vec3) : ℝ :=
  (Finset.univ : Finset (Fin 24)).offDiag.inf'
    ⟨((0 : Fin 24), (1 : Fin 24)),
      Finset.mem_offDiag.2 ⟨Finset.mem_univ _, Finset.mem_univ _, by decide⟩⟩
    fun p => dist3 (q p.1) (q p.2)

/-- The degree values `np.arange(0, 360, 15)`: 24 entries starting at 0 with
step 15. -/
def degList : List ℕ :=
  List.range' 0 24 15

/-- The analytic reference ring of cell 9:
`theta = -(np.arange(0, 360, 15) * np.pi / 180)` and
`expected = np.hstack((np.cos(theta), np.sin(theta), np.zeros_like(theta)))`. -/
def expectedRef : List Vec3 :=
  degList.map fun (d : ℕ) =>
    ![Real.cos (-((d : ℝ) * Real.pi / 180)),
      Real.sin (-((d : ℝ) * Real.pi / 180)), 0]

/-! ## Assembling and applying the similarity transform (cell 10)

`T = np.zeros((4,4)); T[:3,:3] = sR; T[:3,3] = t; T[3,3] = 1` and
`new_Ts = T @ Ts` (the batched matrix product left-multiplies every pose). -/

/-- The 4x4 transform assembled in cell 10 from the linear block `M` and the
translation offset `t`. -/
def assembleT (M : Mat3) (t : Vec3) : Mat4 :=
  ![![M 0 0, M 0 1, M 0 2, t 0],
    ![M 1 0, M 1 1, M 1 2, t 1],
    ![M 2 0, M 2 1, M 2 2, t 2],
    ![0, 0, 0, 1]]

/-- The 3x3 rotation block of a 4x4 pose. -/
def rotBlock (P : Mat4) : Mat3 :=
  ![![P 0 0, P 0 1, P 0 2],
    ![P 1 0, P 1 1, P 1 2],
    ![P 2 0, P 2 1, P 2 2]]

/-- The translation column of a 4x4 pose. -/
def transl (P : Mat4) : Vec3 :=
  ![P 0 3, P 1 3, P 2 3]

/-- The bottom row of a homogeneous pose is `[0, 0, 0, 1]`. -/
def homogeneousRow (P : Mat4) : Prop :=
  P 3 0 = 0 ∧ P 3 1 = 0 ∧ P 3 2 = 0 ∧ P 3 3 = 1

/-- `new_Ts = T @ Ts`: apply the assembled transform to every pose of the
input set. -/
def applyAll (M : Mat3) (t : Vec3) (Ts : List Mat4) : List Mat4 :=
  Ts.map fun P => assembleT M t * P

/-! ## ROI centering (cell 17)

Vectorized per-camera estimate of the subject height:
`ray_dirs, ts = Ts[:, :3, 2], Ts[:, :3, 3]`, `x_xy = -ts[:, :2]`,
`v_xy = np.sum(x_xy * ray_xy, axis=1)[:,None] * ray_xy / np.sum(np.square(ray_xy), axis=1)[:,None]`,
`ratios = v_xy / ray_xy`, `dz_height = ray_dirs[:, 2] * ratios[:, 0]`,
`z_height = np.mean(dz_height + ts[:, 2])`, `ts_new[:, 2] -= z_height`. -/

/-- Per-camera subject-height estimate of cell 17, for a camera with rotation
block `R` (ray direction = third column) and translation `t`.  Division keeps
the notebook's literal order of operations. -/
def camHeight (R : Mat3) (t : Vec3) : ℝ :=
  let rx := R 0 2
  let ry := R 1 2
  let rz := R 2 2
  let sumsq := rx ^ 2 + ry ^ 2
  let dotxy := -t 0 * rx + -t 1 * ry
  let v0 := dotxy * rx / sumsq
  let ratio0 := v0 / rx
  rz * ratio0 + t 2

/-- Cell 17's `z_height = np.mean(dz_height + ts[:, 2])`: the mean ranges over
every camera of the set, with no exclusion of degenerate rays. -/
def zHeight (cams : List (Mat3 × Vec3)) : ℝ :=
  ((cams.map fun c => camHeight c.1 c.2).sum) / cams.length

/-- Modelled from the spec: the `DegenerateRay` contract of sections 4.4 and 7
(the notebook does not implement it).  A camera whose ray direction has
near-zero horizontal component is excluded from the averaging (skip /
NaN-exclude), and the mean is taken over the remaining cameras. -/
def zHeightSpec (cams : List (Mat3 × Vec3)) : ℝ :=
  let good := cams.filter fun c => decide ((c.1 0 2) ^ 2 + (c.1 1 2) ^ 2 ≠ 0)
  ((good.map fun c => camHeight c.1 c.2).sum) / good.length

/-- Vertical re-centering `ts_new[:, 2] -= z_height` as a map on world
points. -/
def recenterZ (h : ℝ) (v : Vec3) : Vec3 :=
  ![v 0, v 1, v 2 - h]

/-! ## Field-of-view rescale (cell 20)

`radius = 1; max_x, max_y = radius * cx / fx, radius * cy / fy;
scale_factor = 0.5 / max(max_x, max_y); ts_new *= scale_factor`. -/

/-- The notebook's `radius = 1`. -/
def fovRadius : ℝ := 1

/-- Cell 20's `scale_factor = 0.5 / max(radius * cx / fx, radius * cy / fy)`. -/
def scaleFactor (fx fy cx cy : ℝ) : ℝ :=
  0.5 / max (fovRadius * cx / fx) (fovRadius * cy / fy)

/-- Cell 20's `ts_new *= scale_factor`: every translation is multiplied by the
factor; rotation blocks are untouched. -/
def rescaleAll (sf : ℝ) (cams : List (Mat3 × Vec3)) : List (Mat3 × Vec3) :=
  cams.map fun c => (c.1, sf • c.2)

/-! ## The similarity fit `ICP_transform_with_scale`

The function lives in the module `canonicalize_camera_poses`, which is not
part of the repository snapshot; only its call sites are.  Sections 4.2 and 6
of the specification describe it as the closed-form Umeyama/Kabsch-with-scale
solution, so it is modelled from the spec below: centroids, centered sets,
cross-covariance `H = Pc^T Qc`, a singular value decomposition `H = U S V^T`
(singular values in the customary descending order), the
reflection-corrected rotation `R = V diag(1,1,det(V U^T)) U^T`, the scale
`s = trace(S) / sum of squared norms of the centered source`, and the offset
`t = centroid(Q) - s R centroid(P)`. -/

open Matrix in
/-- A matrix is orthogonal when its transpose is a left inverse. -/
def IsOrtho3 (U : Mat3) : Prop :=
  Uᵀ * U = 1

/-- Squared Euclidean norm of a 3-vector. -/
def sqNorm3 (v : Vec3) : ℝ :=
  v 0 ^ 2 + v 1 ^ 2 + v 2 ^ 2

/-- Centroid of a finite 3D point set. -/
def centroid3 (m : ℕ) (P : Fin m → Vec3) : Vec3 :=
  (m : ℝ)⁻¹ • ∑ i, P i

/-- The centered point set. -/
def centered (m : ℕ) (P : Fin m → Vec3) : Fin m → Vec3 :=
  fun i => P i - centroid3 m P

/-- Cross-covariance matrix `H = Pc^T Qc` of the centered point sets. -/
def crossCov (m : ℕ) (P Q : Fin m → Vec3) : Mat3 :=
  ∑ i, Matrix.vecMulVec (centered m P i) (centered m Q i)

open Matrix in
/-- Modelled from the spec: `U S V^T` is a singular value decomposition of
`H` with orthogonal factors and a diagonal middle factor whose entries are
nonnegative and descending. -/
def IsSVDOf (H U S V : Mat3) : Prop :=
  IsOrtho3 U ∧ IsOrtho3 V ∧
    S = Matrix.diagonal (fun i => S i i) ∧
    (S 1 1 ≤ S 0 0 ∧ S 2 2 ≤ S 1 1 ∧ 0 ≤ S 2 2) ∧
    H = U * S * Vᵀ

open Matrix in
/-- The reflection guard `diag(1, ..., 1, det(V U^T))` of spec step 4.2.4. -/
def detCorr (U V : Mat3) : Mat3 :=
  Matrix.diagonal ![1, 1, (V * Uᵀ).det]

open Matrix in
/-- Modelled from the spec: `out = (scale, rotation, translation)` is a result
of the closed-form similarity fit of `Q` against `P`
(`fit_similarity(P, Q)` / `ICP_transform_with_scale` with known index
correspondence). -/
def fitTriple (m : ℕ) (P Q : Fin m → Vec3) (out : ℝ × Mat3 × Vec3) : Prop :=
  ∃ U S V : Mat3, IsSVDOf (crossCov m P Q) U S V ∧
    out.1 = Matrix.trace S / ∑ i, sqNorm3 (centered m P i) ∧
    out.2.1 = V * detCorr U V * Uᵀ ∧
    out.2.2 = centroid3 m Q - out.1 • (out.2.1.mulVec (centroid3 m P))

/-- Modelled from the spec: the similarity fit as a function, choosing some
result satisfying `fitTriple` (the SVD is unique only up to the usual
sign/permutation freedom). -/
def fitSimilarity (m : ℕ) (P Q : Fin m → Vec3) : ℝ × Mat3 × Vec3 :=
  if h : ∃ out, fitTriple m P Q out then h.choose else (1, 1, 0)

/-- Residual of a similarity-transform candidate on paired point sets: the
least-squares objective of spec section 4.2. -/
def fitResidual (m : ℕ) (P Q : Fin m → Vec3) (out : ℝ × Mat3 × Vec3) : ℝ :=
  ∑ i, sqNorm3 (out.1 • out.2.1.mulVec (P i) + out.2.2 - Q i)

/-! ## Pipeline orchestration (cells 9 and 10)

`_, sR, t = canonicalize_camera_poses.ICP_transform_with_scale(ts[big_circle], expected)`
binds the second returned component as `sR` — the scale-rotation product of
the similarity transform — and cell 10 installs it as the linear block of
`T`, so the pipeline multiplies the fitted rotation by the fitted scale when
assembling the 4x4 transform. -/

/-- Translation vector of the `i`-th pose of a pose list. -/
def translOf (Ts : List Mat4) : ℕ → Vec3 :=
  fun i => transl (Ts.getD i 0)

/-- The last point of the reference ring list, as a total function. -/
def expectedFun : Fin 24 → Vec3 :=
  fun k => expectedRef.getD k (fun _ => 0)

/-- Cells 9 and 10 after duplicate validation: select the big circle, fit it
against the reference ring, assemble `T` from `sR` and `t`, and left-multiply
every pose. -/
def alignStage (Ts : List Mat4) (tk : List ℕ) : List Mat4 :=
  let pts := translOf Ts
  let big := bigCircle Ts.length pts tk
  let fit := fitSimilarity 24 (fun k => pts (big.getD k 0)) expectedFun
  applyAll (fit.1 • fit.2.1) fit.2.2 Ts

/-- The full canonicalization pipeline of cell 9: duplicate removal, the
cardinality assertion, then alignment applied to every pose.  A `none` result
models the notebook aborting with `ValueError` or `AssertionError` before the
alignment stage runs. -/
def canonicalize (Ts : List Mat4) : Option (List Mat4) :=
  match dedupValidated Ts.length (translOf Ts) with
  | none => none
  | some tk => some (alignStage Ts tk)

/-! ## Concrete inputs used by the witnesses and counterexamples -/

/-- Integer squared distance. -/
def sqDistZ (f : ℕ → Fin 3 → ℤ) (i j : ℕ) : ℤ :=
  (f i 0 - f j 0) ^ 2 + (f i 1 - f j 1) ^ 2 + (f i 2 - f j 2) ^ 2

/-- Integer coordinates embedded into real points. -/
def ptsZ (f : ℕ → Fin 3 → ℤ) : ℕ → Vec3 :=
  fun k c => (f k c : ℝ)

/-- Integer coordinates of the 50-point example. -/
def grid50 : ℕ → Fin 3 → ℤ := fun k c =>
  if k = 27 then (if c = 0 then 501 else 0)
  else if c = 0 then 100 * (k % 10)
  else if c = 1 then 100 * (k / 10)
  else 0

/-- Integer coordinates of the 4-point cluster example. -/
def quad4 : ℕ → Fin 3 → ℤ := fun k c =>
  if k = 3 ∧ c = 0 then 1000 else 0

/-- The action `x maps to s R x + t` of a similarity transform on points. -/
def simMap (s : ℝ) (R : Mat3) (t : Vec3) (x : Vec3) : Vec3 :=
  s • R.mulVec x + t

/-- Four non-collinear planar points. -/
def P4 : Fin 4 → Vec3 :=
  ![![1, 0, 0], ![-1, 0, 0], ![0, 1, 0], ![0, -1, 0]]

/-- A pose with identity rotation block and translation `v`. -/
def poseOfPoint (v : Vec3) : Mat4 :=
  assembleT 1 v

/-- Fifty poses whose translations are the 50-point grid example. -/
def Ts50 : List Mat4 :=
  (List.range 50).map fun k => poseOfPoint (ptsZ grid50 k)

/-- A camera looking 45 degrees downward through the axis point `(0, 0, 3)`. -/
def camA : Mat3 × Vec3 :=
  (![![Real.sqrt 2 / 2, 0, Real.sqrt 2 / 2],
     ![0, 1, 0],
     ![-(Real.sqrt 2 / 2), 0, Real.sqrt 2 / 2]], ![-1, 0, 2])

/-- A camera looking straight down: the horizontal component of its ray
direction is exactly zero. -/
def camB : Mat3 × Vec3 :=
  (1, ![0, 0, 10])

/-- The two-camera input exhibiting the missing degenerate-ray exclusion. -/
def cams4 : List (Mat3 × Vec3) :=
  [camA, camB]

/-- The 45-degree camera of the C5 counterexample: its viewing ray passes
through `(1, 2, 3)`, a point off the vertical axis. -/
def camC : Mat3 × Vec3 :=
  (![![Real.sqrt 2 / 2, 0, Real.sqrt 2 / 2],
     ![0, 1, 0],
     ![-(Real.sqrt 2 / 2), 0, Real.sqrt 2 / 2]], ![0, 2, 2])

/-- Unit directions on the x-axis indexed by naturals, for the two-circle
example of the big-circle selection. -/
def uwN (m : ℕ) : Vec3 :=
  ![(m : ℝ), 0, 0]

/-- Two concentric groups of 24 points: indices below 24 are scaled by two
(radius 2), indices from 24 on have radius 1. -/
def pw (m : ℕ) : Vec3 :=
  if m < 24 then (2 : ℝ) • uwN m else uwN (m - 24)

/-! ## Lemmas on the removal loop -/

theorem removeFirst_eq (l : List ℕ) (a : ℕ) :
    removeFirst l a = if a ∈ l then some (l.erase a) else none := by
  induction l with
  | nil => simp [removeFirst]
  | cons x xs ih =>
    by_cases hx : x = a
    · subst hx
      simp [removeFirst]
    · rw [removeFirst, if_neg hx, ih]
      have hax : ¬a = x := fun h => hx h.symm
      by_cases ha : a ∈ xs
      · simp [ha, List.erase_cons, hax, hx]
      · simp [ha, hax]

theorem runRemovals_some (pairs : List (ℕ × ℕ)) :
    ∀ l : List ℕ, (pairs.map Prod.snd).Nodup →
      (∀ v ∈ pairs.map Prod.snd, v ∈ l) → l.Nodup →
      runRemovals l pairs =
        some (l.filter fun x => decide (x ∉ pairs.map Prod.snd)) := by
  induction pairs with
  | nil => intro l _ _ _; simp [runRemovals]
  | cons p rest ih =>
    intro l hnd hmem hl
    obtain ⟨i, j⟩ := p
    have hj : j ∈ l := hmem j (by simp)
    have hjrest : j ∉ rest.map Prod.snd := by
      have := hnd
      simp only [List.map_cons, List.nodup_cons] at this
      exact this.1
    have hndrest : (rest.map Prod.snd).Nodup := by
      have := hnd
      simp only [List.map_cons, List.nodup_cons] at this
      exact this.2
    have hmemrest : ∀ v ∈ rest.map Prod.snd, v ∈ l.erase j := by
      intro v hv
      have hvne : v ≠ j := fun h => hjrest (h ▸ hv)
      exact (List.mem_erase_of_ne hvne).2 (hmem v (by simp [hv]))
    rw [runRemovals, removeFirst_eq, if_pos hj]
    show runRemovals (l.erase j) rest = _
    rw [ih (l.erase j) hndrest hmemrest (hl.erase j)]
    congr 1
    rw [hl.erase_eq_filter j, List.filter_filter]
    apply List.filter_congr
    intro x _
    by_cases hxj : x = j
    · subst hxj
      simp
    · by_cases hxr : x ∈ rest.map Prod.snd <;> simp [hxj, hxr]

theorem runRemovals_none (pairs : List (ℕ × ℕ)) :
    ∀ (l : List ℕ) (v : ℕ),
      l.count v < (pairs.map Prod.snd).count v →
      runRemovals l pairs = none := by
  induction pairs with
  | nil => intro l v h; simp at h
  | cons p rest ih =>
    intro l v h
    obtain ⟨i, j⟩ := p
    rw [runRemovals, removeFirst_eq]
    by_cases hj : j ∈ l
    · rw [if_pos hj]
      show runRemovals (l.erase j) rest = none
      apply ih _ v
      by_cases hvj : v = j
      · subst hvj
        have h1 : 0 < l.count v := by
          rwa [List.count_pos_iff]
        have h2 : (l.erase v).count v = l.count v - 1 :=
          List.count_erase_self v l
        simp only [List.map_cons, List.count_cons_self] at h
        omega
      · have h2 : (l.erase j).count v = l.count v :=
          List.count_erase_of_ne hvj l
        simp only [List.map_cons] at h ⊢
        rw [List.count_cons_of_ne hvj] at h
        omega
    · rw [if_neg hj]

/-! ## Lemmas on the flagged-pair list -/

theorem mem_pairList {n : ℕ} {flag : ℕ → ℕ → Bool} {p : ℕ × ℕ} :
    p ∈ pairList n flag ↔ p.1 < p.2 ∧ p.2 < n ∧ flag p.1 p.2 = true := by
  obtain ⟨i, j⟩ := p
  simp only [pairList, List.mem_filter, List.mem_flatMap, List.mem_map,
    List.mem_range, Bool.and_eq_true, decide_eq_true_eq]
  constructor
  · rintro ⟨⟨a, ha, b, hb, hab⟩, hf, hij⟩
    obtain ⟨rfl, rfl⟩ := Prod.mk.injEq .. ▸ hab
    exact ⟨hij, hb, hf⟩
  · rintro ⟨hij, hj, hf⟩
    exact ⟨⟨i, by omega, j, hj, rfl⟩, hf, hij⟩

theorem pairList_nodup (n : ℕ) (flag : ℕ → ℕ → Bool) :
    (pairList n flag).Nodup := by
  apply List.Nodup.filter
  exact List.Nodup.product (List.nodup_range _) (List.nodup_range _)

theorem two_le_count_map : ∀ (l : List (ℕ × ℕ)) {x y : ℕ × ℕ} {j : ℕ},
    x ≠ y → x ∈ l → y ∈ l → x.2 = j → y.2 = j →
    2 ≤ (l.map Prod.snd).count j := by
  intro l
  induction l with
  | nil => intro x y j _ hx _ _ _; simp at hx
  | cons a l ih =>
    intro x y j hxy hx hy hfx hfy
    rcases List.mem_cons.1 hx with rfl | hx2
    · have hy2 : y ∈ l := by
        rcases List.mem_cons.1 hy with rfl | h
        · exact absurd rfl hxy
        · exact h
      have hj : j ∈ l.map Prod.snd := List.mem_map.2 ⟨y, hy2, hfy⟩
      have h1 : 0 < (l.map Prod.snd).count j := List.count_pos_iff.2 hj
      simp only [List.map_cons, hfx, List.count_cons_self]
      omega
    · rcases List.mem_cons.1 hy with rfl | hy2
      · have hj : j ∈ l.map Prod.snd := List.mem_map.2 ⟨x, hx2, hfx⟩
        have h1 : 0 < (l.map Prod.snd).count j := List.count_pos_iff.2 hj
        simp only [List.map_cons, hfy, List.count_cons_self]
        omega
      · have h2 := ih hxy hx2 hy2 hfx hfy
        simp only [List.map_cons]
        rcases eq_or_ne a.2 j with he | he
        · rw [he, List.count_cons_self]
          omega
        · rw [List.count_cons_of_ne (Ne.symm he)]
          exact h2

theorem keptList_mem {n : ℕ} {flag : ℕ → ℕ → Bool} (x : ℕ) :
    x ∈ keptList n flag ↔ x < n ∧ ¬∃ i, i < x ∧ flag i x = true := by
  simp [keptList, List.mem_filter, List.mem_range, List.any_eq_true]

theorem toTake_eq_keptList {n : ℕ} {flag : ℕ → ℕ → Bool}
    (h1 : ∀ j i1 i2, i1 < j → i2 < j → j < n →
      flag i1 j = true → flag i2 j = true → i1 = i2) :
    toTake n flag = some (keptList n flag) := by
  have hnd : ((pairList n flag).map Prod.snd).Nodup := by
    apply List.Nodup.map_on _ (pairList_nodup n flag)
    intro x hx y hy hxy
    rw [mem_pairList] at hx hy
    have hy1 : y.1 < x.2 := hxy ▸ hy.1
    have hfy : flag y.1 x.2 = true := by rw [hxy]; exact hy.2.2
    have hq : x.1 = y.1 := h1 x.2 x.1 y.1 hx.1 hy1 hx.2.1 hx.2.2 hfy
    exact Prod.ext hq hxy
  have hmem : ∀ v ∈ (pairList n flag).map Prod.snd, v ∈ List.range n := by
    intro v hv
    simp only [List.mem_map] at hv
    obtain ⟨p, hp, hp2⟩ := hv
    rw [mem_pairList] at hp
    exact List.mem_range.2 (hp2 ▸ hp.2.1)
  rw [toTake, runRemovals_some _ _ hnd hmem (List.nodup_range _)]
  congr 1
  apply List.filter_congr
  intro x hxr
  have hx : x < n := List.mem_range.1 hxr
  rw [Bool.eq_iff_iff]
  simp only [decide_eq_true_eq, Bool.not_eq_true', ← Bool.not_eq_true,
    List.any_eq_true, List.mem_map, List.mem_range]
  constructor
  · intro hdec hany
    obtain ⟨i, hi, hf⟩ := hany
    exact hdec ⟨(i, x), mem_pairList.2 ⟨hi, hx, hf⟩, rfl⟩
  · intro hany hmm
    obtain ⟨p, hp, hpx⟩ := hmm
    rw [mem_pairList] at hp
    exact hany ⟨p.1, hpx ▸ hp.1, by rw [← hpx]; exact hp.2.2⟩

theorem toTake_eq_none {n : ℕ} {flag : ℕ → ℕ → Bool} {j i1 i2 : ℕ}
    (hi : i1 ≠ i2) (h1 : i1 < j) (h2 : i2 < j) (hj : j < n)
    (f1 : flag i1 j = true) (f2 : flag i2 j = true) :
    toTake n flag = none := by
  apply runRemovals_none _ _ j
  have hc1 : (List.range n).count j = 1 :=
    List.count_eq_one_of_mem (List.nodup_range _) (List.mem_range.2 hj)
  have hc2 : 2 ≤ ((pairList n flag).map Prod.snd).count j := by
    apply two_le_count_map (x := (i1, j)) (y := (i2, j))
    · simp [hi]
    · exact mem_pairList.2 ⟨h1, hj, f1⟩
    · exact mem_pairList.2 ⟨h2, hj, f2⟩
    · rfl
    · rfl
  omega

/-! ## Lemmas on distances and flagging -/

theorem sqDist3_nonneg (a b : Vec3) : 0 ≤ sqDist3 a b := by
  unfold sqDist3
  positivity

theorem dist3_nonneg (a b : Vec3) : 0 ≤ dist3 a b :=
  Real.sqrt_nonneg _

theorem flagB_iff {n : ℕ} {pts : ℕ → Vec3} {i j : ℕ} :
    flagB n pts i j = true ↔ flaggedR n pts i j :=
  decide_eq_true_iff

theorem maxDist_eq {n : ℕ} (hn : 0 < n) (pts : ℕ → Vec3) {a b : ℕ}
    (ha : a < n) (hb : b < n)
    (hub : ∀ i < n, ∀ j < n, dist3 (pts i) (pts j) ≤ dist3 (pts a) (pts b)) :
    maxDist n pts = dist3 (pts a) (pts b) := by
  rw [maxDist, dif_pos hn]
  apply le_antisymm
  · apply Finset.sup'_le
    rintro ⟨i, j⟩ hij
    simp only [Finset.mem_product, Finset.mem_range] at hij
    exact hub i hij.1 j hij.2
  · apply Finset.le_sup' (f := fun p : ℕ × ℕ => dist3 (pts p.1) (pts p.2))
      (b := (a, b))
    simp [Finset.mem_product, Finset.mem_range, ha, hb]

theorem ge_maxDist {n : ℕ} (hn : 0 < n) (pts : ℕ → Vec3) {a b : ℕ}
    (ha : a < n) (hb : b < n)
    (hub : ∀ i < n, ∀ j < n, dist3 (pts i) (pts j) ≤ dist3 (pts a) (pts b)) :
    ∀ i < n, ∀ j < n, dist3 (pts i) (pts j) ≤ maxDist n pts := by
  intro i hi j hj
  rw [maxDist_eq hn pts ha hb hub]
  exact hub i hi j hj

theorem not_flaggedR_diag (n : ℕ) (pts : ℕ → Vec3) (i : ℕ) :
    ¬flaggedR n pts i i := by
  unfold flaggedR normDist dupThreshold
  rw [if_pos rfl]
  intro h
  have hpi : Real.pi < 3.15 := Real.pi_lt_d2
  nlinarith

theorem flaggedR_iff_sq {n : ℕ} {pts : ℕ → Vec3} {M : ℝ} (hM : 0 < M)
    (hmax : maxDist n pts = Real.sqrt M) {i j : ℕ} (hij : i ≠ j) :
    (flaggedR n pts i j ↔
      2304 * sqDist3 (pts i) (pts j) < Real.pi ^ 2 * M) := by
  have hsq : 0 ≤ sqDist3 (pts i) (pts j) := sqDist3_nonneg _ _
  have hsM : 0 < Real.sqrt M := Real.sqrt_pos.2 hM
  have hpi : 0 < Real.pi := Real.pi_pos
  unfold flaggedR normDist dupThreshold
  rw [if_neg hij, hmax, div_lt_iff hsM]
  have hthr : Real.pi * (15 / 360) / 2 = Real.pi / 48 := by ring
  rw [hthr]
  constructor
  · intro h
    have h48 : 48 * dist3 (pts i) (pts j) < Real.pi * Real.sqrt M := by
      rw [div_mul_eq_mul_div, lt_div_iff (by norm_num : (0:ℝ) < 48)] at h
      nlinarith [h]
    have hsq48 : (48 * dist3 (pts i) (pts j)) ^ 2 <
        (Real.pi * Real.sqrt M) ^ 2 := by
      apply pow_lt_pow_left₀ h48
        (mul_nonneg (by norm_num) (dist3_nonneg _ _)) (by norm_num)
    calc 2304 * sqDist3 (pts i) (pts j)
        = (48 * dist3 (pts i) (pts j)) ^ 2 := by
          rw [mul_pow, dist3, Real.sq_sqrt hsq]; norm_num
      _ < (Real.pi * Real.sqrt M) ^ 2 := hsq48
      _ = Real.pi ^ 2 * M := by
          rw [mul_pow, Real.sq_sqrt hM.le]
  · intro h
    have h48 : 48 * dist3 (pts i) (pts j) < Real.pi * Real.sqrt M := by
      have e1 : (48 * dist3 (pts i) (pts j)) ^ 2 = 2304 * sqDist3 (pts i) (pts j) := by
        rw [mul_pow, dist3, Real.sq_sqrt hsq]; norm_num
      have e2 : (Real.pi * Real.sqrt M) ^ 2 = Real.pi ^ 2 * M := by
        rw [mul_pow, Real.sq_sqrt hM.le]
      have hlt : (48 * dist3 (pts i) (pts j)) ^ 2 <
          (Real.pi * Real.sqrt M) ^ 2 := by rw [e1, e2]; exact h
      by_contra hge
      push_neg at hge
      have : (Real.pi * Real.sqrt M) ^ 2 ≤ (48 * dist3 (pts i) (pts j)) ^ 2 := by
        apply pow_le_pow_left (by positivity) hge
      linarith
    calc dist3 (pts i) (pts j)
        = 48 * dist3 (pts i) (pts j) / 48 := by ring
      _ < Real.pi * Real.sqrt M / 48 := by linarith
      _ = Real.pi / 48 * Real.sqrt M := by ring

/-! ## Integer-coordinate point sets

Concrete inputs are given with integer coordinates so that all pairwise
comparisons reduce to decidable integer arithmetic; the two rational bounds
`3.14 < pi < 3.15` bracket the irrational threshold. -/

theorem sqDist3_ptsZ (f : ℕ → Fin 3 → ℤ) (i j : ℕ) :
    sqDist3 (ptsZ f i) (ptsZ f j) = (sqDistZ f i j : ℝ) := by
  unfold sqDist3 sqDistZ ptsZ
  push_cast
  ring

theorem maxDist_ptsZ_eq {n : ℕ} (hn : 0 < n) (f : ℕ → Fin 3 → ℤ) {a b : ℕ}
    (ha : a < n) (hb : b < n)
    (hub : ∀ i < n, ∀ j < n, sqDistZ f i j ≤ sqDistZ f a b) :
    maxDist n (ptsZ f) = Real.sqrt ((sqDistZ f a b : ℝ)) := by
  have h := maxDist_eq hn (ptsZ f) ha hb ?_
  · rw [h, dist3, sqDist3_ptsZ]
  · intro i hi j hj
    unfold dist3
    rw [sqDist3_ptsZ, sqDist3_ptsZ]
    apply Real.sqrt_le_sqrt
    exact_mod_cast hub i hi j hj

theorem flaggedZ_true {n : ℕ} {f : ℕ → Fin 3 → ℤ} {Mz : ℤ} (hMz : 0 < Mz)
    (hmax : maxDist n (ptsZ f) = Real.sqrt ((Mz : ℝ))) {i j : ℕ} (hij : i ≠ j)
    (h : 23040000 * sqDistZ f i j < 98596 * Mz) :
    flaggedR n (ptsZ f) i j := by
  rw [flaggedR_iff_sq (by exact_mod_cast hMz) hmax hij, sqDist3_ptsZ]
  have hpi : (3.14 : ℝ) < Real.pi := Real.pi_gt_d2
  have hq : (23040000 : ℝ) * (sqDistZ f i j : ℝ) < 98596 * (Mz : ℝ) := by
    exact_mod_cast h
  have hM0 : (0:ℝ) < (Mz : ℝ) := by exact_mod_cast hMz
  have hpisq : (9.8596 : ℝ) ≤ Real.pi ^ 2 := by
    nlinarith [hpi, sq_nonneg (Real.pi - 3.14)]
  have hstep : (9.8596 : ℝ) * (Mz : ℝ) ≤ Real.pi ^ 2 * (Mz : ℝ) :=
    mul_le_mul_of_nonneg_right hpisq hM0.le
  linarith

theorem flaggedZ_false {n : ℕ} {f : ℕ → Fin 3 → ℤ} {Mz : ℤ} (hMz : 0 < Mz)
    (hmax : maxDist n (ptsZ f) = Real.sqrt ((Mz : ℝ))) {i j : ℕ} (hij : i ≠ j)
    (h : 99225 * Mz ≤ 23040000 * sqDistZ f i j) :
    ¬flaggedR n (ptsZ f) i j := by
  rw [flaggedR_iff_sq (by exact_mod_cast hMz) hmax hij, sqDist3_ptsZ]
  have hpi : Real.pi < 3.15 := Real.pi_lt_d2
  have hq : (99225 : ℝ) * (Mz : ℝ) ≤ 23040000 * (sqDistZ f i j : ℝ) := by
    exact_mod_cast h
  have hM0 : (0:ℝ) < (Mz : ℝ) := by exact_mod_cast hMz
  have hpisq : Real.pi ^ 2 ≤ (9.9225 : ℝ) := by
    nlinarith [hpi, Real.pi_pos]
  have hstep : Real.pi ^ 2 * (Mz : ℝ) ≤ (9.9225 : ℝ) * (Mz : ℝ) :=
    mul_le_mul_of_nonneg_right hpisq hM0.le
  intro hlt
  linarith

/-! ## A concrete 50-point input: a 10 x 5 grid with spacing 100 where point 27
sits one unit away from point 5, so that exactly the unordered pair `{5, 27}`
is within the duplicate tolerance. -/

theorem grid50_bound : ∀ i j : Fin 50,
    sqDistZ grid50 (i : ℕ) (j : ℕ) ≤ 970000 := by decide

theorem grid50_sep : ∀ i j : Fin 50, (i : ℕ) ≠ (j : ℕ) →
    ¬((i : ℕ) = 5 ∧ (j : ℕ) = 27) → ¬((i : ℕ) = 27 ∧ (j : ℕ) = 5) →
    99225 * 970000 ≤ 23040000 * sqDistZ grid50 (i : ℕ) (j : ℕ) := by decide

theorem maxDist_grid50 :
    maxDist 50 (ptsZ grid50) = Real.sqrt (((970000 : ℤ) : ℝ)) := by
  have hval : sqDistZ grid50 0 49 = 970000 := by decide
  rw [← hval]
  apply maxDist_ptsZ_eq (by norm_num) grid50 (by norm_num) (by norm_num)
  intro i hi j hj
  rw [hval]
  exact grid50_bound ⟨i, hi⟩ ⟨j, hj⟩

theorem flag50_iff {i j : ℕ} (hi : i < 50) (hj : j < 50) :
    (flaggedR 50 (ptsZ grid50) i j ↔
      ((i = 5 ∧ j = 27) ∨ (i = 27 ∧ j = 5))) := by
  constructor
  · intro hflag
    by_contra hcon
    rw [not_or] at hcon
    have hij : i ≠ j := by
      rintro rfl
      exact not_flaggedR_diag _ _ _ hflag
    refine flaggedZ_false (by norm_num) maxDist_grid50 hij ?_ hflag
    exact grid50_sep ⟨i, hi⟩ ⟨j, hj⟩ hij hcon.1 hcon.2
  · rintro (⟨rfl, rfl⟩ | ⟨rfl, rfl⟩) <;>
      exact flaggedZ_true (by norm_num) maxDist_grid50 (by norm_num) (by decide)

theorem pairList_congr {n : ℕ} {f g : ℕ → ℕ → Bool}
    (h : ∀ i < n, ∀ j < n, f i j = g i j) :
    pairList n f = pairList n g := by
  unfold pairList
  apply List.filter_congr
  intro p hp
  simp only [List.mem_flatMap, List.mem_map, List.mem_range] at hp
  obtain ⟨a, ha, b, hb, hab⟩ := hp
  subst hab
  show (f a b && decide (a < b)) = (g a b && decide (a < b))
  rw [h a ha b hb]

set_option maxRecDepth 4000 in
theorem pairList_grid50 :
    pairList 50 (flagB 50 (ptsZ grid50)) = [(5, 27)] := by
  have hcongr : pairList 50 (flagB 50 (ptsZ grid50)) =
      pairList 50 fun i j =>
        decide ((i = 5 ∧ j = 27) ∨ (i = 27 ∧ j = 5)) := by
    apply pairList_congr
    intro i hi j hj
    rw [Bool.eq_iff_iff, flagB_iff, decide_eq_true_iff]
    exact flag50_iff hi hj
  rw [hcongr]
  decide

set_option maxRecDepth 4000 in
theorem toTake_grid50 :
    toTake 50 (flagB 50 (ptsZ grid50)) =
      some ((List.range 50).filter fun x => x != 27) := by
  rw [toTake, pairList_grid50]
  decide

/-! ## A concrete 4-point input with a duplicate cluster of size three:
points 0, 1, 2 coincide and point 3 is far away. -/

theorem quad4_bound : ∀ i j : Fin 4,
    sqDistZ quad4 (i : ℕ) (j : ℕ) ≤ 1000000 := by decide

theorem maxDist_quad4 :
    maxDist 4 (ptsZ quad4) = Real.sqrt (((1000000 : ℤ) : ℝ)) := by
  have hval : sqDistZ quad4 0 3 = 1000000 := by decide
  rw [← hval]
  apply maxDist_ptsZ_eq (by norm_num) quad4 (by norm_num) (by norm_num)
  intro i hi j hj
  rw [hval]
  exact quad4_bound ⟨i, hi⟩ ⟨j, hj⟩

theorem flag_quad4_02 : flaggedR 4 (ptsZ quad4) 0 2 :=
  flaggedZ_true (by norm_num) maxDist_quad4 (by norm_num) (by decide)

theorem flag_quad4_12 : flaggedR 4 (ptsZ quad4) 1 2 :=
  flaggedZ_true (by norm_num) maxDist_quad4 (by norm_num) (by decide)

/-! ## Characterization of a successful removal pass -/

theorem toTake_some_eq {n : ℕ} {flag : ℕ → ℕ → Bool} {l : List ℕ}
    (h : toTake n flag = some l) : l = keptList n flag := by
  by_cases hle : ∀ j i1 i2, i1 < j → i2 < j → j < n →
      flag i1 j = true → flag i2 j = true → i1 = i2
  · rw [toTake_eq_keptList hle] at h
    injection h with h
    exact h.symm
  · exfalso
    push_neg at hle
    obtain ⟨j, i1, i2, h1, h2, hj, f1, f2, hne⟩ := hle
    rw [toTake_eq_none hne h1 h2 hj f1 f2] at h
    cases h

/-! ## Block structure of the applied transform (cell 10) -/

theorem rotBlock_apply (M : Mat3) (t : Vec3) (P : Mat4)
    (hP : homogeneousRow P) :
    rotBlock (assembleT M t * P) = M * rotBlock P := by
  obtain ⟨h0, h1, h2, _⟩ := hP
  ext i j
  fin_cases i <;> fin_cases j <;>
    simp [assembleT, rotBlock, Matrix.mul_apply, Fin.sum_univ_four,
      Fin.sum_univ_three, h0, h1, h2] <;> ring

theorem transl_apply (M : Mat3) (t : Vec3) (P : Mat4)
    (hP : homogeneousRow P) :
    transl (assembleT M t * P) = M.mulVec (transl P) + t := by
  obtain ⟨_, _, _, h3⟩ := hP
  ext i
  fin_cases i <;>
    simp [assembleT, transl, Matrix.mul_apply, Matrix.mulVec,
      Matrix.dotProduct, Matrix.vecHead, Matrix.vecTail,
      Fin.sum_univ_four, Fin.sum_univ_three, h3] <;> ring

/-! ## Per-camera height estimate (cells 15 and 17) -/

theorem camHeight_eq {R : Mat3} (t : Vec3) (hrx : R 0 2 ≠ 0) :
    camHeight R t =
      R 2 2 * ((-t 0 * R 0 2 + -t 1 * R 1 2) /
        (R 0 2 ^ 2 + R 1 2 ^ 2)) + t 2 := by
  unfold camHeight
  have hs : R 0 2 ^ 2 + R 1 2 ^ 2 ≠ 0 := by positivity
  field_simp
  ring

/-- A camera whose viewing ray passes through the axis point `(0, 0, h)`
estimates the height `h` exactly (cell 15's geometry, specialised to a
subject on the vertical axis). -/
theorem camHeight_axis {R : Mat3} {t : Vec3} {h L : ℝ}
    (hrx : R 0 2 ≠ 0)
    (h0 : t 0 + L * R 0 2 = 0)
    (h1 : t 1 + L * R 1 2 = 0)
    (h2 : t 2 + L * R 2 2 = h) :
    camHeight R t = h := by
  rw [camHeight_eq t hrx]
  have hs : R 0 2 ^ 2 + R 1 2 ^ 2 ≠ 0 := by positivity
  have ht0 : t 0 = -(L * R 0 2) := by linarith
  have ht1 : t 1 = -(L * R 1 2) := by linarith
  rw [ht0, ht1]
  field_simp
  ring_nf
  nlinarith [h2]

/-- When every per-camera estimate equals `h`, the mean of cell 17 is `h`. -/
theorem zHeight_const {cams : List (Mat3 × Vec3)} {h : ℝ} (hne : cams ≠ [])
    (hall : ∀ c ∈ cams, camHeight c.1 c.2 = h) : zHeight cams = h := by
  unfold zHeight
  have hmap : cams.map (fun c => camHeight c.1 c.2) = cams.map fun _ => h :=
    List.map_congr_left hall
  rw [hmap, List.map_const']
  rw [List.sum_replicate, nsmul_eq_mul]
  have hlen : (cams.length : ℝ) ≠ 0 := by
    have := List.length_pos.2 hne
    positivity
  field_simp

/-! ## Distances under a common scaling (for the big-circle choice) -/

theorem sqDist3_pos {a b : Vec3} (h : a ≠ b) : 0 < sqDist3 a b := by
  rcases lt_or_eq_of_le (sqDist3_nonneg a b) with h1 | h1
  · exact h1
  · exfalso
    apply h
    unfold sqDist3 at h1
    have e0 : a 0 - b 0 = 0 := by
      nlinarith [sq_nonneg (a 0 - b 0), sq_nonneg (a 1 - b 1),
        sq_nonneg (a 2 - b 2)]
    have e1 : a 1 - b 1 = 0 := by
      nlinarith [sq_nonneg (a 0 - b 0), sq_nonneg (a 1 - b 1),
        sq_nonneg (a 2 - b 2)]
    have e2 : a 2 - b 2 = 0 := by
      nlinarith [sq_nonneg (a 0 - b 0), sq_nonneg (a 1 - b 1),
        sq_nonneg (a 2 - b 2)]
    have ha0 : a 0 = b 0 := by linarith
    have ha1 : a 1 = b 1 := by linarith
    have ha2 : a 2 = b 2 := by linarith
    funext i
    fin_cases i
    · exact ha0
    · exact ha1
    · exact ha2

theorem dist3_pos {a b : Vec3} (h : a ≠ b) : 0 < dist3 a b :=
  Real.sqrt_pos.2 (sqDist3_pos h)

theorem le_maxDist {n : ℕ} {pts : ℕ → Vec3} {i j : ℕ} (hi : i < n)
    (hj : j < n) : dist3 (pts i) (pts j) ≤ maxDist n pts := by
  rw [maxDist, dif_pos (by omega : 0 < n)]
  apply Finset.le_sup' (f := fun p : ℕ × ℕ => dist3 (pts p.1) (pts p.2))
    (b := (i, j))
  simp [Finset.mem_product, Finset.mem_range, hi, hj]

theorem maxDist_pos {n : ℕ} {pts : ℕ → Vec3} {i j : ℕ} (hi : i < n)
    (hj : j < n) (hne : pts i ≠ pts j) : 0 < maxDist n pts :=
  lt_of_lt_of_le (dist3_pos hne) (le_maxDist hi hj)

theorem dist3_smul_add (c : Vec3) {r : ℝ} (hr : 0 ≤ r) (x y : Vec3) :
    dist3 (c + r • x) (c + r • y) = r * dist3 x y := by
  unfold dist3
  have hsq : sqDist3 (c + r • x) (c + r • y) = r ^ 2 * sqDist3 x y := by
    unfold sqDist3
    simp only [Pi.add_apply, Pi.smul_apply, smul_eq_mul]
    ring
  rw [hsq, Real.sqrt_mul (sq_nonneg r), Real.sqrt_sq hr]

theorem nnSpacing_smul (c : Vec3) {r : ℝ} (hr : 0 ≤ r) (u : Fin 24 → Vec3) :
    nnSpacing (fun k => c + r • u k) = r * nnSpacing u := by
  have hne : ((Finset.univ : Finset (Fin 24)).offDiag).Nonempty :=
    ⟨((0 : Fin 24), (1 : Fin 24)),
      Finset.mem_offDiag.2 ⟨Finset.mem_univ _, Finset.mem_univ _, by decide⟩⟩
  have hmin : ∀ x y : ℝ,
      (fun z => r * z) (x ⊓ y) = (fun z => r * z) x ⊓ (fun z => r * z) y := by
    intro x y
    exact (monotone_mul_left_of_nonneg hr).map_min
  have h2 := Finset.comp_inf'_eq_inf'_comp hne
    (f := fun p : Fin 24 × Fin 24 => dist3 (u p.1) (u p.2))
    (fun z => r * z) hmin
  unfold nnSpacing
  refine Eq.trans ?_ h2.symm
  exact Finset.inf'_congr hne rfl
    fun p hp => dist3_smul_add c hr (u p.1) (u p.2)

theorem nnSpacing_pos {u : Fin 24 → Vec3} (hu : Function.Injective u) :
    0 < nnSpacing u := by
  unfold nnSpacing
  rw [Finset.lt_inf'_iff]
  rintro ⟨a, b⟩ hab
  rw [Finset.mem_offDiag] at hab
  exact dist3_pos fun h => hab.2.2 (hu h)

theorem normDist_gt_iff {n : ℕ} {pts : ℕ → Vec3} {i j k l : ℕ}
    (hij : i ≠ j) (hkl : k ≠ l) (hmax : 0 < maxDist n pts) :
    (normDist n pts i j > normDist n pts k l ↔
      dist3 (pts i) (pts j) > dist3 (pts k) (pts l)) := by
  unfold normDist
  rw [if_neg hij, if_neg hkl]
  exact div_lt_div_right hmax

/-! ## The analytic reference ring (cell 9) -/

theorem expectedRef_length : expectedRef.length = 24 := by
  simp [expectedRef, degList]

theorem expectedRef_getD {k : ℕ} (hk : k < 24) :
    expectedRef.getD k (fun _ => 0) =
      ![Real.cos (-((k : ℝ) * (Real.pi / 12))),
        Real.sin (-((k : ℝ) * (Real.pi / 12))), 0] := by
  have hlen : k < expectedRef.length := by rw [expectedRef_length]; exact hk
  rw [List.getD_eq_getElem _ _ hlen]
  unfold expectedRef degList
  rw [List.getElem_map, List.getElem_range']
  have harg : -(((0 + 15 * k : ℕ) : ℝ) * Real.pi / 180) =
      -((k : ℝ) * (Real.pi / 12)) := by
    push_cast
    ring
  rw [harg]

/-! ## The similarity map and its interaction with centroids -/

open Matrix

theorem IsOrtho3.mul_transpose {U : Mat3} (h : IsOrtho3 U) : U * Uᵀ = 1 :=
  Matrix.mul_eq_one_comm.1 h

theorem IsOrtho3.det_mul_det {U : Mat3} (h : IsOrtho3 U) :
    U.det * U.det = 1 := by
  have h2 := congrArg Matrix.det h
  rwa [Matrix.det_mul, Matrix.det_transpose, Matrix.det_one] at h2

theorem mulVec3_sum {m : ℕ} (R : Mat3) (v : Fin m → Vec3) :
    R.mulVec (∑ i, v i) = ∑ i, R.mulVec (v i) := by
  ext c
  simp only [Matrix.mulVec, Matrix.dotProduct, Finset.sum_apply]
  rw [Finset.sum_comm]
  exact Finset.sum_congr rfl fun k hk => by rw [Finset.mul_sum]

theorem mulVec3_smul (R : Mat3) (r : ℝ) (x : Vec3) :
    R.mulVec (r • x) = r • R.mulVec x := by
  ext c
  simp only [Matrix.mulVec, Matrix.dotProduct, Pi.smul_apply, smul_eq_mul]
  rw [Finset.mul_sum]
  exact Finset.sum_congr rfl fun k hk => by ring

theorem centroid3_simMap {m : ℕ} (hm : (m : ℝ) ≠ 0) (P : Fin m → Vec3)
    (s : ℝ) (R : Mat3) (t : Vec3) :
    centroid3 m (fun i => simMap s R t (P i)) = simMap s R t (centroid3 m P) := by
  unfold centroid3
  have h1 : ∑ i, simMap s R t (P i) =
      s • R.mulVec (∑ i, P i) + (m : ℝ) • t := by
    unfold simMap
    rw [Finset.sum_add_distrib, Finset.sum_const, Finset.card_univ,
      Fintype.card_fin]
    congr 1
    · rw [mulVec3_sum, Finset.smul_sum]
    · ext c
      simp [nsmul_eq_mul]
  rw [h1]
  unfold simMap
  rw [smul_add, mulVec3_smul, smul_comm ((m : ℝ)⁻¹) s, smul_smul]
  congr 1
  rw [smul_smul, inv_mul_cancel₀ hm, one_smul]

theorem centered_simMap {m : ℕ} (hm : (m : ℝ) ≠ 0) (P : Fin m → Vec3)
    (s : ℝ) (R : Mat3) (t : Vec3) (i : Fin m) :
    centered m (fun j => simMap s R t (P j)) i =
      s • R.mulVec (centered m P i) := by
  unfold centered
  rw [centroid3_simMap hm]
  unfold simMap
  rw [Matrix.mulVec_sub, smul_sub]
  abel

theorem vecMulVec_smul_mulVec (p q : Vec3) (s : ℝ) (R : Mat3) :
    Matrix.vecMulVec p (s • R.mulVec q) = s • (Matrix.vecMulVec p q * Rᵀ) := by
  ext a b
  simp only [Matrix.vecMulVec_apply, Pi.smul_apply, smul_eq_mul,
    Matrix.smul_apply, Matrix.mul_apply, Matrix.transpose_apply,
    Matrix.mulVec, Matrix.dotProduct]
  simp only [Finset.mul_sum]
  exact Finset.sum_congr rfl fun k hk => by ring

theorem crossCov_simMap {m : ℕ} (hm : (m : ℝ) ≠ 0) (P : Fin m → Vec3)
    (s : ℝ) (R : Mat3) (t : Vec3) :
    crossCov m P (fun i => simMap s R t (P i)) =
      s • (crossCov m P P * Rᵀ) := by
  unfold crossCov
  rw [Finset.sum_mul, Finset.smul_sum]
  apply Finset.sum_congr rfl
  intro i hi
  rw [centered_simMap hm]
  exact vecMulVec_smul_mulVec ..

theorem crossCov_self_transpose {m : ℕ} (P : Fin m → Vec3) :
    (crossCov m P P)ᵀ = crossCov m P P := by
  unfold crossCov
  rw [Matrix.transpose_sum]
  apply Finset.sum_congr rfl
  intro i hi
  ext a b
  simp [Matrix.transpose_apply, Matrix.vecMulVec_apply, mul_comm]

theorem vecMulVec_mulVec3 (u v x : Vec3) :
    (Matrix.vecMulVec u v).mulVec x = (Matrix.dotProduct v x) • u := by
  ext a
  simp only [Matrix.mulVec, Matrix.dotProduct, Matrix.vecMulVec_apply,
    Pi.smul_apply, smul_eq_mul]
  rw [Finset.sum_mul]
  exact Finset.sum_congr rfl fun b hb => by ring

theorem sum_mulVec3 {m : ℕ} (M : Fin m → Mat3) (x : Vec3) :
    (∑ i, M i).mulVec x = ∑ i, (M i).mulVec x := by
  ext a
  simp only [Matrix.mulVec, Matrix.dotProduct, Finset.sum_apply,
    Matrix.sum_apply]
  trans (∑ b, ∑ i, M i a b * x b)
  · exact Finset.sum_congr rfl fun b hb => Finset.sum_mul ..
  · exact Finset.sum_comm

theorem dotProduct_sum3 {m : ℕ} (x : Vec3) (w : Fin m → Vec3) :
    Matrix.dotProduct x (∑ i, w i) = ∑ i, Matrix.dotProduct x (w i) := by
  simp only [Matrix.dotProduct, Finset.sum_apply]
  trans (∑ a, ∑ i, x a * w i a)
  · exact Finset.sum_congr rfl fun a ha => Finset.mul_sum ..
  · exact Finset.sum_comm

theorem dotProduct_crossCov_self {m : ℕ} (P : Fin m → Vec3) (x : Vec3) :
    Matrix.dotProduct x ((crossCov m P P).mulVec x) =
      ∑ i, (Matrix.dotProduct (centered m P i) x) ^ 2 := by
  unfold crossCov
  rw [sum_mulVec3, dotProduct_sum3]
  apply Finset.sum_congr rfl
  intro i hi
  rw [vecMulVec_mulVec3, Matrix.dotProduct_smul, Matrix.dotProduct_comm]
  simp [smul_eq_mul, sq]

theorem trace_vecMulVec (u v : Vec3) :
    Matrix.trace (Matrix.vecMulVec u v) = Matrix.dotProduct u v := by
  simp [Matrix.trace, Matrix.diag, Matrix.vecMulVec_apply, Matrix.dotProduct]

theorem trace_crossCov_self {m : ℕ} (P : Fin m → Vec3) :
    Matrix.trace (crossCov m P P) = ∑ i, sqNorm3 (centered m P i) := by
  unfold crossCov
  rw [Matrix.trace_sum]
  apply Finset.sum_congr rfl
  intro i hi
  rw [trace_vecMulVec]
  unfold sqNorm3
  simp only [Matrix.dotProduct, Fin.sum_univ_three]
  ring

/-! ## Positive semidefiniteness facts for the fit -/

theorem crossCov_self_posSemidef {m : ℕ} (P : Fin m → Vec3) :
    Matrix.PosSemidef (crossCov m P P) := by
  constructor
  · show (crossCov m P P)ᴴ = crossCov m P P
    rw [Matrix.conjTranspose_eq_transpose_of_trivial, crossCov_self_transpose]
  · intro x
    have hstar : star x = x := by
      funext a
      simp
    rw [hstar, dotProduct_crossCov_self]
    exact Finset.sum_nonneg fun i hi => sq_nonneg _

theorem posSemidef_smul3 {A : Mat3} (hA : Matrix.PosSemidef A) {c : ℝ}
    (hc : 0 ≤ c) : Matrix.PosSemidef (c • A) := by
  constructor
  · show (c • A)ᴴ = c • A
    rw [Matrix.conjTranspose_smul]
    show (starRingEnd ℝ) c • Aᴴ = c • A
    rw [hA.1]
    simp
  · intro x
    rw [Matrix.smul_mulVec_assoc, Matrix.dotProduct_smul]
    exact mul_nonneg hc (hA.2 x)

theorem posSemidef_conj {A : Mat3} (hA : Matrix.PosSemidef A) (U : Mat3) :
    Matrix.PosSemidef (Uᵀ * A * U) := by
  have h := hA.conjTranspose_mul_mul_same U
  rwa [Matrix.conjTranspose_eq_transpose_of_trivial] at h

/-! ## Quadratic-form entries of a conjugated matrix -/

theorem conj_entry (B U : Mat3) (j : Fin 3) :
    (Uᵀ * B * U) j j =
      Matrix.dotProduct (fun a => U a j) (B.mulVec fun b => U b j) := by
  simp only [Matrix.mul_apply, Matrix.mulVec, Matrix.dotProduct,
    Matrix.transpose_apply]
  trans (∑ b, ∑ a, U a j * B a b * U b j)
  · exact Finset.sum_congr rfl fun b hb => Finset.sum_mul ..
  · rw [Finset.sum_comm]
    apply Finset.sum_congr rfl
    intro a ha
    rw [Finset.mul_sum]
    exact Finset.sum_congr rfl fun b hb => by ring

theorem expand_orthobasis {U : Mat3} (hUUT : U * Uᵀ = 1) (v : Vec3)
    (a : Fin 3) :
    v a = ∑ k, Matrix.dotProduct v (fun b => U b k) * U a k := by
  have h1 : v = (U * Uᵀ).mulVec v := by rw [hUUT, Matrix.one_mulVec]
  conv_lhs => rw [h1]
  simp only [Matrix.mulVec, Matrix.dotProduct, Matrix.mul_apply,
    Matrix.transpose_apply]
  trans (∑ b, ∑ k, U a k * U b k * v b)
  · exact Finset.sum_congr rfl fun b hb => Finset.sum_mul ..
  · rw [Finset.sum_comm]
    apply Finset.sum_congr rfl
    intro k hk
    rw [Finset.sum_mul]
    exact Finset.sum_congr rfl fun b hb => by ring

theorem quad_entry {m : ℕ} (P : Fin m → Vec3) (s₀ : ℝ) {U S : Mat3}
    (hUo : IsOrtho3 U)
    (hSA : U * S * Uᵀ = s₀ • crossCov m P P) (j : Fin 3) :
    S j j = s₀ *
      ∑ i, (Matrix.dotProduct (centered m P i) (fun a => U a j)) ^ 2 := by
  have hS : S = Uᵀ * (s₀ • crossCov m P P) * U := by
    rw [← hSA]
    rw [show Uᵀ * (U * S * Uᵀ) * U = (Uᵀ * U) * S * (Uᵀ * U) from by
      simp only [Matrix.mul_assoc]]
    rw [hUo, Matrix.one_mul, Matrix.mul_one]
  have hentry := congrArg (fun M : Mat3 => M j j) hS
  simp only at hentry
  rw [hentry, conj_entry, Matrix.smul_mulVec_assoc, Matrix.dotProduct_smul,
    dotProduct_crossCov_self]
  simp only [smul_eq_mul]

/-! ## Collinearity from a rank-deficient covariance -/

theorem centered_sub {m : ℕ} (P : Fin m → Vec3) (i j : Fin m) :
    centered m P i - centered m P j = P i - P j := by
  unfold centered
  abel

theorem collinear_of_centered_smul {m : ℕ} (P : Fin m → Vec3) (x0 : Vec3)
    (c : Fin m → ℝ) (hc : ∀ i, centered m P i = c i • x0) (i j k : Fin m) :
    Collinear ℝ ({P i, P j, P k} : Set Vec3) := by
  rw [collinear_iff_of_mem (Set.mem_insert (P i) _)]
  refine ⟨x0, ?_⟩
  have key : ∀ y : Fin m, ∃ r : ℝ, P y = r • x0 +ᵥ P i := by
    intro y
    refine ⟨c y - c i, ?_⟩
    have h1 : P y - P i = (c y - c i) • x0 := by
      rw [← centered_sub P y i, hc y, hc i, sub_smul]
    rw [vadd_eq_add, ← h1]
    abel
  intro p hp
  simp only [Set.mem_insert_iff, Set.mem_singleton_iff] at hp
  rcases hp with rfl | rfl | rfl
  · exact key i
  · exact key j
  · exact key k

theorem two_singulars_pos {m : ℕ} (P : Fin m → Vec3) {s₀ : ℝ} (hs : 0 < s₀)
    {U S : Mat3} (hUo : IsOrtho3 U)
    (hord : S 1 1 ≤ S 0 0 ∧ S 2 2 ≤ S 1 1 ∧ 0 ≤ S 2 2)
    (hSA : U * S * Uᵀ = s₀ • crossCov m P P)
    (hnc : ∃ i j k : Fin m, ¬ Collinear ℝ ({P i, P j, P k} : Set Vec3)) :
    0 < S 1 1 := by
  by_contra hle
  push_neg at hle
  have h2 : S 2 2 = 0 := le_antisymm (le_trans hord.2.1 hle) hord.2.2
  have h1 : S 1 1 = 0 := le_antisymm hle (h2 ▸ hord.2.1)
  obtain ⟨ic, jc, kc, hcol⟩ := hnc
  apply hcol
  have hzero : ∀ j : Fin 3, S j j = 0 →
      ∀ i : Fin m,
        Matrix.dotProduct (centered m P i) (fun a => U a j) = 0 := by
    intro j hj i
    have hq := quad_entry P s₀ hUo hSA j
    rw [hj] at hq
    have hsum :
        ∑ i, (Matrix.dotProduct (centered m P i) (fun a => U a j)) ^ 2 = 0 := by
      rcases mul_eq_zero.1 hq.symm with h | h
      · exact absurd h hs.ne'
      · exact h
    have hz := (Finset.sum_eq_zero_iff_of_nonneg
      fun i _ => sq_nonneg _).1 hsum i (Finset.mem_univ i)
    exact pow_eq_zero_iff (by norm_num) |>.1 hz
  have hexp : ∀ i : Fin m, centered m P i =
      (Matrix.dotProduct (centered m P i) (fun b => U b 0)) •
        (fun a => U a 0) := by
    intro i
    funext a
    rw [expand_orthobasis hUo.mul_transpose (centered m P i) a,
      Fin.sum_univ_three]
    rw [hzero 1 h1 i, hzero 2 h2 i]
    simp
  exact collinear_of_centered_smul P (fun a => U a 0) _ hexp ic jc kc

/-! ## The round-trip property of the modelled similarity fit -/

theorem fitTriple_roundtrip {m : ℕ} (P : Fin m → Vec3) {s₀ : ℝ} {R₀ : Mat3}
    {t₀ : Vec3} (hs : 0 < s₀) (hRo : IsOrtho3 R₀) (hRdet : R₀.det = 1)
    (hnc : ∃ i j k : Fin m, ¬ Collinear ℝ ({P i, P j, P k} : Set Vec3))
    {out : ℝ × Mat3 × Vec3}
    (hout : fitTriple m P (fun i => simMap s₀ R₀ t₀ (P i)) out) :
    out = (s₀, R₀, t₀) := by
  have hmpos : 0 < m := by
    obtain ⟨i, _, _, _⟩ := hnc
    exact i.pos
  have hm0 : (m : ℝ) ≠ 0 := by exact_mod_cast hmpos.ne'
  obtain ⟨U, S, V, hsvd, hsval, hRval, htval⟩ := hout
  obtain ⟨hUo, hVo, hdiag, hord, hH⟩ := hsvd
  have hUTU : Uᵀ * U = 1 := hUo
  have hVTV : Vᵀ * V = 1 := hVo
  have hRTR : R₀ᵀ * R₀ = 1 := hRo
  have hUUT : U * Uᵀ = 1 := hUo.mul_transpose
  have hVVT : V * Vᵀ = 1 := hVo.mul_transpose
  have hRRT : R₀ * R₀ᵀ = 1 := hRo.mul_transpose
  have hcanU : ∀ X : Mat3, U * (Uᵀ * X) = X := fun X => by
    rw [← Matrix.mul_assoc, hUUT, Matrix.one_mul]
  have hcanUT : ∀ X : Mat3, Uᵀ * (U * X) = X := fun X => by
    rw [← Matrix.mul_assoc, hUTU, Matrix.one_mul]
  have hcanV : ∀ X : Mat3, V * (Vᵀ * X) = X := fun X => by
    rw [← Matrix.mul_assoc, hVVT, Matrix.one_mul]
  have hcanR : ∀ X : Mat3, R₀ * (R₀ᵀ * X) = X := fun X => by
    rw [← Matrix.mul_assoc, hRRT, Matrix.one_mul]
  have hcanRT : ∀ X : Mat3, R₀ᵀ * (R₀ * X) = X := fun X => by
    rw [← Matrix.mul_assoc, hRTR, Matrix.one_mul]
  have hHA : crossCov m P (fun i => simMap s₀ R₀ t₀ (P i)) =
      s₀ • (crossCov m P P * R₀ᵀ) := crossCov_simMap hm0 P s₀ R₀ t₀
  have hsA : s₀ • crossCov m P P = U * S * Vᵀ * R₀ := by
    calc s₀ • crossCov m P P
        = s₀ • (crossCov m P P * (R₀ᵀ * R₀)) := by rw [hRTR, Matrix.mul_one]
      _ = s₀ • (crossCov m P P * R₀ᵀ) * R₀ := by
          rw [Matrix.smul_mul, Matrix.mul_assoc]
      _ = crossCov m P (fun i => simMap s₀ R₀ t₀ (P i)) * R₀ := by rw [hHA]
      _ = U * S * Vᵀ * R₀ := by rw [hH]
  have hWo0 : (Vᵀ * R₀ * U)ᵀ * (Vᵀ * R₀ * U) = 1 := by
    simp only [Matrix.transpose_mul, Matrix.transpose_transpose,
      Matrix.mul_assoc]
    rw [hcanV, hcanRT, hUTU]
  have hKval0 : Uᵀ * (s₀ • crossCov m P P) * U = S * (Vᵀ * R₀ * U) := by
    rw [hsA]
    simp only [Matrix.mul_assoc]
    rw [hcanUT]
  have hVW0 : R₀ * (U * (Vᵀ * R₀ * U)ᵀ) = V := by
    have hWT : (Vᵀ * R₀ * U)ᵀ = Uᵀ * (R₀ᵀ * V) := by
      simp only [Matrix.transpose_mul, Matrix.transpose_transpose,
        Matrix.mul_assoc]
    rw [hWT, hcanU, hcanR]
  obtain ⟨W, hWeq⟩ : ∃ W : Mat3, Vᵀ * R₀ * U = W := ⟨_, rfl⟩
  rw [hWeq] at hWo0 hKval0 hVW0
  have hWWT : W * Wᵀ = 1 := Matrix.mul_eq_one_comm.1 hWo0
  have hcanW : ∀ X : Mat3, W * (Wᵀ * X) = X := fun X => by
    rw [← Matrix.mul_assoc, hWWT, Matrix.one_mul]
  have hApsd := crossCov_self_posSemidef P
  have hsApsd := posSemidef_smul3 hApsd hs.le
  have hKpsd : Matrix.PosSemidef (S * W) := by
    have h := posSemidef_conj hsApsd U
    rwa [hKval0] at h
  have hKsymm : (S * W)ᵀ = S * W := by
    have h2 : (S * W)ᴴ = S * W := hKpsd.1
    rwa [Matrix.conjTranspose_eq_transpose_of_trivial] at h2
  have hSdiagT : Sᵀ = S := by
    conv_lhs => rw [hdiag]
    rw [Matrix.diagonal_transpose, ← hdiag]
  have hSq : (S * W) * (S * W) = S * S := by
    calc (S * W) * (S * W)
        = (S * W) * (S * W)ᵀ := by rw [hKsymm]
      _ = S * (W * (Wᵀ * Sᵀ)) := by
          simp only [Matrix.transpose_mul, Matrix.transpose_transpose,
            Matrix.mul_assoc]
      _ = S * S := by rw [hcanW, hSdiagT]
  have hSpsd : Matrix.PosSemidef S := by
    rw [hdiag]
    apply Matrix.posSemidef_diagonal_iff.2
    intro i
    fin_cases i
    · exact le_trans (le_trans hord.2.2 hord.2.1) hord.1
    · exact le_trans hord.2.2 hord.2.1
    · exact hord.2.2
  have hKS : S * W = S := by
    apply hKpsd.eq_of_sq_eq_sq hSpsd
    rw [pow_two, pow_two, hSq]
  have hUSU : U * S * Uᵀ = s₀ • crossCov m P P := by
    have h1 : Uᵀ * (s₀ • crossCov m P P) * U = S := by rw [hKval0, hKS]
    calc U * S * Uᵀ
        = U * (Uᵀ * (s₀ • crossCov m P P) * U) * Uᵀ := by rw [h1]
      _ = s₀ • crossCov m P P := by
          simp only [Matrix.mul_assoc]
          rw [hUUT, Matrix.mul_one, hcanU]
  have hSesq : ∀ a k : Fin 3, S a k = if a = k then S a a else 0 := by
    intro a k
    by_cases h : a = k
    · subst h
      simp
    · conv_lhs => rw [hdiag]
      simp [Matrix.diagonal_apply_ne _ h, h]
  have hent : ∀ a b : Fin 3, S a a * W a b = S a b := by
    intro a b
    have h1 : (S * W) a b = S a b := by rw [hKS]
    rw [Matrix.mul_apply] at h1
    have h2 : ∑ k, S a k * W k b = S a a * W a b := by
      rw [Finset.sum_congr rfl fun k hk => by rw [hSesq a k]]
      simp [ite_mul, Finset.sum_ite_eq]
    rw [← h2]
    exact h1
  have hd1 : 0 < S 1 1 := two_singulars_pos P hs hUo hord hUSU hnc
  have hd0 : 0 < S 0 0 := lt_of_lt_of_le hd1 hord.1
  have hW00 : W 0 0 = 1 := by
    have h := hent 0 0
    exact mul_left_cancel₀ hd0.ne' (by rw [h, mul_one])
  have hW01 : W 0 1 = 0 := by
    have h := hent 0 1
    rw [hSesq 0 1] at h
    simp only [if_neg (by decide : ¬(0 : Fin 3) = 1)] at h
    exact (mul_eq_zero.1 h).resolve_left hd0.ne'
  have hW02 : W 0 2 = 0 := by
    have h := hent 0 2
    rw [hSesq 0 2] at h
    simp only [if_neg (by decide : ¬(0 : Fin 3) = 2)] at h
    exact (mul_eq_zero.1 h).resolve_left hd0.ne'
  have hW10 : W 1 0 = 0 := by
    have h := hent 1 0
    rw [hSesq 1 0] at h
    simp only [if_neg (by decide : ¬(1 : Fin 3) = 0)] at h
    exact (mul_eq_zero.1 h).resolve_left hd1.ne'
  have hW11 : W 1 1 = 1 := by
    have h := hent 1 1
    exact mul_left_cancel₀ hd1.ne' (by rw [h, mul_one])
  have hW12 : W 1 2 = 0 := by
    have h := hent 1 2
    rw [hSesq 1 2] at h
    simp only [if_neg (by decide : ¬(1 : Fin 3) = 2)] at h
    exact (mul_eq_zero.1 h).resolve_left hd1.ne'
  have hW20 : W 2 0 = 0 := by
    have h1 := congrArg (fun M : Mat3 => M 2 0) hWWT
    simp only [Matrix.mul_apply, Fin.sum_univ_three, Matrix.transpose_apply,
      Matrix.one_apply] at h1
    rw [hW00, hW01, hW02] at h1
    simpa using h1
  have hW21 : W 2 1 = 0 := by
    have h1 := congrArg (fun M : Mat3 => M 2 1) hWWT
    simp only [Matrix.mul_apply, Fin.sum_univ_three, Matrix.transpose_apply,
      Matrix.one_apply] at h1
    rw [hW10, hW11, hW12] at h1
    simpa using h1
  have hε2 : W 2 2 * W 2 2 = 1 := by
    have h1 := congrArg (fun M : Mat3 => M 2 2) hWWT
    simp only [Matrix.mul_apply, Fin.sum_univ_three, Matrix.transpose_apply,
      Matrix.one_apply] at h1
    rw [hW20, hW21] at h1
    simpa using h1
  have hWdiag : W = Matrix.diagonal ![1, 1, W 2 2] := by
    ext a b
    fin_cases a <;> fin_cases b <;>
      simp [Matrix.diagonal_apply, hW00, hW01, hW02, hW10, hW11, hW12,
        hW20, hW21]
  have hdetW : W.det = W 2 2 := by
    rw [hWdiag, Matrix.det_diagonal]
    simp [Fin.prod_univ_three]
  have hdetVU : (V * Uᵀ).det = W 2 2 := by
    rw [← hVW0]
    rw [Matrix.det_mul, Matrix.det_mul, Matrix.det_mul,
      Matrix.det_transpose, Matrix.det_transpose, hRdet, hdetW]
    have hU2 := hUo.det_mul_det
    linear_combination W 2 2 * hU2
  have hcorr : detCorr U V = Matrix.diagonal ![1, 1, W 2 2] := by
    unfold detCorr
    rw [hdetVU]
  have hRout : out.2.1 = R₀ := by
    rw [hRval, hcorr, ← hVW0, hWdiag, Matrix.diagonal_transpose]
    have hdd : Matrix.diagonal ![1, 1, W 2 2] *
        Matrix.diagonal ![1, 1, W 2 2] = 1 := by
      rw [Matrix.diagonal_mul_diagonal]
      have he : (fun i => ![1, 1, W 2 2] i * ![1, 1, W 2 2] i) =
          fun _ : Fin 3 => (1 : ℝ) := by
        funext a
        fin_cases a <;> simp [hε2]
      rw [he]
      exact Matrix.diagonal_one
    calc R₀ * (U * Matrix.diagonal ![1, 1, W 2 2]) *
          Matrix.diagonal ![1, 1, W 2 2] * Uᵀ
        = R₀ * (U * (Matrix.diagonal ![1, 1, W 2 2] *
            (Matrix.diagonal ![1, 1, W 2 2] * Uᵀ))) := by
          simp only [Matrix.mul_assoc]
      _ = R₀ * (U * Uᵀ) := by
          rw [← Matrix.mul_assoc (Matrix.diagonal _), hdd, Matrix.one_mul]
      _ = R₀ := by rw [hUUT, Matrix.mul_one]
  have htrApos : 0 < Matrix.trace (crossCov m P P) := by
    rw [trace_crossCov_self]
    have hex : ∃ i0 : Fin m, centered m P i0 ≠ 0 := by
      by_contra hallz
      push_neg at hallz
      obtain ⟨i, j, k, hcol⟩ := hnc
      apply hcol
      apply collinear_of_centered_smul P 0 (fun _ => 0) (fun i2 => by
        rw [hallz i2]; simp)
    obtain ⟨i0, hi0⟩ := hex
    apply Finset.sum_pos'
    · intro i _
      unfold sqNorm3
      positivity
    · refine ⟨i0, Finset.mem_univ i0, ?_⟩
      have heq : sqNorm3 (centered m P i0) =
          sqDist3 (centered m P i0) 0 := by
        unfold sqNorm3 sqDist3
        simp
      rw [heq]
      exact sqDist3_pos (by simpa using hi0)
  have htrS : Matrix.trace S = s₀ * Matrix.trace (crossCov m P P) := by
    have h1 : Matrix.trace (U * S * Uᵀ) = Matrix.trace S := by
      rw [Matrix.trace_mul_cycle, hUTU, Matrix.one_mul]
    rw [← h1, hUSU, Matrix.trace_smul, smul_eq_mul]
  have hsout : out.1 = s₀ := by
    rw [hsval, ← trace_crossCov_self, htrS]
    field_simp
  have htout : out.2.2 = t₀ := by
    rw [htval, hsout, hRout, centroid3_simMap hm0]
    unfold simMap
    abel
  rw [Prod.ext_iff, Prod.ext_iff]
  exact ⟨hsout, hRout, htout⟩

/-! ## A concrete fit instance: four planar points scaled by two -/

theorem centroid3_P4 : centroid3 4 P4 = 0 := by
  unfold centroid3 P4
  ext c
  rw [Fin.sum_univ_four]
  fin_cases c <;> simp

theorem centered_P4 : ∀ i, centered 4 P4 i = P4 i := by
  intro i
  unfold centered
  rw [centroid3_P4, sub_zero]

theorem crossCov_P4 :
    crossCov 4 P4 (fun i => simMap 2 1 0 (P4 i)) =
      Matrix.diagonal ![4, 4, 0] := by
  have hm0 : ((4 : ℕ) : ℝ) ≠ 0 := by norm_num
  rw [crossCov_simMap hm0]
  unfold crossCov
  ext a b
  simp only [Matrix.smul_apply, Matrix.mul_apply, Matrix.sum_apply,
    Matrix.transpose_one, Matrix.vecMulVec_apply, centered_P4,
    Fin.sum_univ_four, Fin.sum_univ_three, smul_eq_mul]
  fin_cases a <;> fin_cases b <;>
    simp [P4, Matrix.diagonal_apply, Matrix.one_apply] <;> norm_num

theorem P4_noncollinear :
    ¬Collinear ℝ ({P4 0, P4 2, P4 3} : Set Vec3) := by
  intro hcol
  rw [collinear_iff_of_mem (Set.mem_insert _ _)] at hcol
  obtain ⟨v, hv⟩ := hcol
  obtain ⟨a, ha⟩ := hv (P4 2) (by simp)
  obtain ⟨b, hb⟩ := hv (P4 3) (by simp)
  have e1 : a * v 0 = -1 := by
    have h0 := congrFun ha 0
    simp [P4, vadd_eq_add, Matrix.vecHead, Matrix.vecTail] at h0
    linarith
  have e2 : a * v 1 = 1 := by
    have h0 := congrFun ha 1
    simp [P4, vadd_eq_add, Matrix.vecHead, Matrix.vecTail] at h0
    linarith
  have e3 : b * v 0 = -1 := by
    have h0 := congrFun hb 0
    simp [P4, vadd_eq_add, Matrix.vecHead, Matrix.vecTail] at h0
    linarith
  have e4 : b * v 1 = -1 := by
    have h0 := congrFun hb 1
    simp [P4, vadd_eq_add, Matrix.vecHead, Matrix.vecTail] at h0
    linarith
  have key : (a * v 0) * (b * v 1) - (a * v 1) * (b * v 0) = 0 := by ring
  rw [e1, e2, e3, e4] at key
  norm_num at key

theorem fitTriple_P4 :
    fitTriple 4 P4 (fun i => simMap 2 1 0 (P4 i)) (2, 1, 0) := by
  refine ⟨1, Matrix.diagonal ![4, 4, 0], 1, ⟨?_, ?_, ?_, ?_, ?_⟩, ?_, ?_, ?_⟩
  · show (1 : Mat3)ᵀ * 1 = 1
    rw [Matrix.transpose_one, Matrix.one_mul]
  · show (1 : Mat3)ᵀ * 1 = 1
    rw [Matrix.transpose_one, Matrix.one_mul]
  · ext a b
    by_cases h : a = b
    · subst h
      simp
    · simp [Matrix.diagonal_apply_ne _ h]
  · refine ⟨?_, ?_, ?_⟩ <;> simp [Matrix.diagonal_apply_eq]
  · rw [crossCov_P4, Matrix.transpose_one, Matrix.one_mul, Matrix.mul_one]
  · show (2 : ℝ) = Matrix.trace (Matrix.diagonal ![4, 4, 0]) /
      ∑ i, sqNorm3 (centered 4 P4 i)
    rw [Matrix.trace_diagonal]
    have hden : ∑ i, sqNorm3 (centered 4 P4 i) = 4 := by
      rw [Fin.sum_univ_four]
      simp only [centered_P4]
      unfold sqNorm3 P4
      norm_num [Matrix.vecHead, Matrix.vecTail]
    rw [hden, Fin.sum_univ_three]
    norm_num
  · show (1 : Mat3) = 1 * detCorr 1 1 * (1 : Mat3)ᵀ
    unfold detCorr
    rw [Matrix.transpose_one, Matrix.one_mul, Matrix.mul_one,
      Matrix.one_mul, Matrix.det_one]
    symm
    ext a b
    by_cases h : a = b
    · subst h
      fin_cases a <;> simp
    · simp [Matrix.diagonal_apply_ne _ h, Matrix.one_apply_ne h]
  · show (0 : Vec3) = centroid3 4 (fun i => simMap 2 1 0 (P4 i)) -
      (2 : ℝ) • (1 : Mat3).mulVec (centroid3 4 P4)
    have hm0 : ((4 : ℕ) : ℝ) ≠ 0 := by norm_num
    rw [centroid3_simMap hm0, centroid3_P4]
    unfold simMap
    ext c
    simp [Matrix.mulVec_zero]

/-! ## Congruence in the point input and the 50-pose list -/

theorem maxDist_congr {n : ℕ} {p q : ℕ → Vec3} (h : ∀ k < n, p k = q k) :
    maxDist n p = maxDist n q := by
  unfold maxDist
  by_cases hn : 0 < n
  · rw [dif_pos hn, dif_pos hn]
    apply Finset.sup'_congr _ rfl
    rintro ⟨a, b⟩ hab
    simp only [Finset.mem_product, Finset.mem_range] at hab
    rw [h a hab.1, h b hab.2]
  · rw [dif_neg hn, dif_neg hn]

theorem flagB_congr {n : ℕ} {p q : ℕ → Vec3} (h : ∀ k < n, p k = q k)
    {i j : ℕ} (hi : i < n) (hj : j < n) :
    flagB n p i j = flagB n q i j := by
  unfold flagB flaggedR normDist
  rw [maxDist_congr h, h i hi, h j hj]

theorem toTake_congr {n : ℕ} {p q : ℕ → Vec3} (h : ∀ k < n, p k = q k) :
    toTake n (flagB n p) = toTake n (flagB n q) := by
  unfold toTake
  rw [pairList_congr fun i hi j hj => flagB_congr h hi hj]

theorem transl_poseOfPoint (v : Vec3) : transl (poseOfPoint v) = v := by
  funext i
  fin_cases i <;> rfl

theorem Ts50_length : Ts50.length = 50 := by
  simp [Ts50]

theorem translOf_Ts50 : ∀ k, k < 50 → translOf Ts50 k = ptsZ grid50 k := by
  intro k hk
  unfold translOf Ts50
  rw [List.getD_eq_getElem _ _ (by simpa using hk), List.getElem_map,
    List.getElem_range]
  exact transl_poseOfPoint _

theorem sqrt2_mul_self : Real.sqrt 2 * Real.sqrt 2 = 2 :=
  Real.mul_self_sqrt (by norm_num)

theorem sqrt2_half_ne : Real.sqrt 2 / 2 ≠ 0 := by
  have h2 : 0 < Real.sqrt 2 := Real.sqrt_pos.2 (by norm_num)
  positivity

theorem camHeight_camA : camHeight camA.1 camA.2 = 3 := by
  apply camHeight_axis (L := Real.sqrt 2)
  · show Real.sqrt 2 / 2 ≠ 0
    exact sqrt2_half_ne
  · show (-1 : ℝ) + Real.sqrt 2 * (Real.sqrt 2 / 2) = 0
    rw [← mul_div_assoc, sqrt2_mul_self]
    norm_num
  · show (0 : ℝ) + Real.sqrt 2 * 0 = 0
    ring
  · show (2 : ℝ) + Real.sqrt 2 * (Real.sqrt 2 / 2) = 3
    rw [← mul_div_assoc, sqrt2_mul_self]
    norm_num

theorem camHeight_camB : camHeight camB.1 camB.2 = 10 := by
  unfold camHeight camB
  norm_num [Matrix.one_apply]

theorem camHeight_camC : camHeight camC.1 camC.2 = 2 := by
  rw [camHeight_eq _ (by show Real.sqrt 2 / 2 ≠ 0; exact sqrt2_half_ne)]
  show Real.sqrt 2 / 2 * ((-(0 : ℝ) * (Real.sqrt 2 / 2) + -2 * 0) /
    ((Real.sqrt 2 / 2) ^ 2 + 0 ^ 2)) + 2 = 2
  have hs : ((Real.sqrt 2 / 2) ^ 2 + (0:ℝ) ^ 2) ≠ 0 := by
    have h2 : 0 < Real.sqrt 2 := Real.sqrt_pos.2 (by norm_num)
    positivity
  field_simp

theorem zHeight_cams4 : zHeight cams4 = 13 / 2 := by
  unfold zHeight cams4
  simp only [List.map_cons, List.map_nil, List.sum_cons, List.sum_nil,
    List.length_cons, List.length_nil]
  rw [camHeight_camA, camHeight_camB]
  norm_num

theorem zHeightSpec_cams4 : zHeightSpec cams4 = 3 := by
  unfold zHeightSpec cams4
  have hA : (camA.1 0 2) ^ 2 + (camA.1 1 2) ^ 2 ≠ 0 := by
    show (Real.sqrt 2 / 2) ^ 2 + (0 : ℝ) ^ 2 ≠ 0
    have h2 : 0 < Real.sqrt 2 := Real.sqrt_pos.2 (by norm_num)
    positivity
  have hB : ¬((camB.1 0 2) ^ 2 + (camB.1 1 2) ^ 2 ≠ 0) := by
    show ¬(((1 : Mat3) 0 2) ^ 2 + ((1 : Mat3) 1 2) ^ 2 ≠ 0)
    simp [Matrix.one_apply]
  simp only [List.filter_cons, List.filter_nil, decide_eq_true hA,
    decide_eq_false hB, if_true, if_false]
  simp only [List.map_cons, List.map_nil, List.sum_cons, List.sum_nil,
    List.length_cons, List.length_nil]
  rw [camHeight_camA]
  norm_num

theorem rotBlock_one : rotBlock (1 : Mat4) = 1 := by
  ext a b
  fin_cases a <;> fin_cases b <;>
    simp [rotBlock, Matrix.one_apply, Matrix.vecHead, Matrix.vecTail]

theorem homogeneousRow_one : homogeneousRow (1 : Mat4) := by
  refine ⟨?_, ?_, ?_, ?_⟩ <;> simp [Matrix.one_apply]

/-! ## Claim theorems -/

/-- Claim C1, counterexample: the aligner on the concrete point sets `P4` and
`2 * P4` returns the similarity `(s, R, t) = (2, 1, 0)`; the notebook installs
the scale-rotation product `sR = 2 * 1` as the linear block of `T` (cell 10),
and the resulting per-pose rotation block is `sR * old_R`, which differs from
the claim's `R * old_R`: the scale is baked into the rotation block. -/
theorem C1_counterexample :
    fitTriple 4 P4 (fun i => simMap 2 1 0 (P4 i)) (2, 1, 0) ∧
    homogeneousRow (1 : Mat4) ∧
    rotBlock (assembleT ((2 : ℝ) • (1 : Mat3)) 0 * 1) =
      ((2 : ℝ) • (1 : Mat3)) * rotBlock 1 ∧
    rotBlock (assembleT ((2 : ℝ) • (1 : Mat3)) 0 * 1) ≠
      (1 : Mat3) * rotBlock 1 := by
  refine ⟨fitTriple_P4, homogeneousRow_one,
    rotBlock_apply _ _ _ homogeneousRow_one, ?_⟩
  intro hEq
  rw [rotBlock_apply _ _ _ homogeneousRow_one, rotBlock_one,
    Matrix.mul_one, Matrix.one_mul] at hEq
  have h00 := congrArg (fun M : Mat3 => M 0 0) hEq
  simp only [Matrix.smul_apply, Matrix.one_apply_eq, smul_eq_mul] at h00
  norm_num at h00

/-- Claim C1, amended: cell 10 left-multiplies every pose of the set by the
assembled transform, so both the translation and the rotation block are acted
on by the same linear block `M` (the notebook's `sR`): the new translation is
`M * old_t + t` and the new rotation block is `M * old_R`; when `M` carries
the fitted scale, the scale multiplies the rotation block as well. -/
theorem C1_apply_to_every_pose (M : Mat3) (t : Vec3) (Ts : List Mat4)
    (P : Mat4) (hP : P ∈ Ts) (hrow : homogeneousRow P) :
    assembleT M t * P ∈ applyAll M t Ts ∧
    rotBlock (assembleT M t * P) = M * rotBlock P ∧
    transl (assembleT M t * P) = M.mulVec (transl P) + t :=
  ⟨List.mem_map_of_mem _ hP, rotBlock_apply M t P hrow,
    transl_apply M t P hrow⟩

/-- Witness for C1 at the identity pose and the scaled transform. -/
theorem C1_witness :
    (1 : Mat4) ∈ [(1 : Mat4)] ∧ homogeneousRow (1 : Mat4) ∧
    (assembleT ((2 : ℝ) • (1 : Mat3)) 0 * 1 ∈
        applyAll ((2 : ℝ) • (1 : Mat3)) 0 [(1 : Mat4)] ∧
      rotBlock (assembleT ((2 : ℝ) • (1 : Mat3)) 0 * 1) =
        ((2 : ℝ) • (1 : Mat3)) * rotBlock 1 ∧
      transl (assembleT ((2 : ℝ) • (1 : Mat3)) 0 * 1) =
        ((2 : ℝ) • (1 : Mat3)).mulVec (transl 1) + 0) :=
  ⟨List.mem_singleton.2 rfl, homogeneousRow_one,
    C1_apply_to_every_pose ((2 : ℝ) • (1 : Mat3)) 0 [(1 : Mat4)] 1
      (List.mem_singleton.2 rfl) homogeneousRow_one⟩

/-- Claim C2: the duplicate filter flags an index pair exactly when the
normalized distance-matrix entry (diagonal set to the sentinel 1) is below
the threshold `pi * (15/360) / 2`; for every flagged pair `(i, j)` with
`i < j` the removal loop drops `j` and an index stays exactly when it is not
the higher member of any flagged pair; on the concrete 50-point set where
only indices 5 and 27 are within tolerance, the output drops index 27 and
keeps the other 49 points. -/
theorem C2_duplicate_filter :
    (∀ (n : ℕ) (pts : ℕ → Vec3) (i j : ℕ),
      flagB n pts i j = true ↔
        normDist n pts i j < Real.pi * (15 / 360) / 2) ∧
    (∀ (n : ℕ) (flag : ℕ → ℕ → Bool) (l : List ℕ),
      toTake n flag = some l →
      ∀ p : ℕ × ℕ, p ∈ pairList n flag →
        p.2 ∉ l ∧ (p.1 ∈ l ↔ ¬∃ i, i < p.1 ∧ flag i p.1 = true)) ∧
    pairList 50 (flagB 50 (ptsZ grid50)) = [(5, 27)] ∧
    toTake 50 (flagB 50 (ptsZ grid50)) =
      some ((List.range 50).filter fun x => x != 27) ∧
    ((List.range 50).filter fun x => x != 27).length = 49 := by
  refine ⟨?_, ?_, pairList_grid50, toTake_grid50, by decide⟩
  · intro n pts i j
    exact flagB_iff
  · intro n flag l h p hp
    have hl : l = keptList n flag := toTake_some_eq h
    subst hl
    rw [mem_pairList] at hp
    constructor
    · rw [keptList_mem]
      rintro ⟨hn, hno⟩
      exact hno ⟨p.1, hp.1, hp.2.2⟩
    · rw [keptList_mem]
      constructor
      · rintro ⟨_, h2⟩
        exact h2
      · intro h2
        exact ⟨lt_trans hp.1 hp.2.1, h2⟩

/-- Witness for C2 on the 50-point grid input. -/
theorem C2_witness :
    toTake 50 (flagB 50 (ptsZ grid50)) =
      some ((List.range 50).filter fun x => x != 27) ∧
    (5, 27) ∈ pairList 50 (flagB 50 (ptsZ grid50)) ∧
    27 ∉ (List.range 50).filter (fun x => x != 27) ∧
    (5 ∈ (List.range 50).filter (fun x => x != 27) ↔
      ¬∃ i, i < 5 ∧ flagB 50 (ptsZ grid50) i 5 = true) := by
  have h := C2_duplicate_filter
  have htt := h.2.2.2.1
  have hmem : (5, 27) ∈ pairList 50 (flagB 50 (ptsZ grid50)) := by
    rw [h.2.2.1]
    simp
  have happ := h.2.1 50 _ _ htt (5, 27) hmem
  exact ⟨htt, hmem, happ.1, happ.2⟩

/-- Claim C3: when the count after duplicate removal differs from 48 the
pipeline aborts (`assert len(to_take) == 48`) before any alignment runs; when
it equals 48 the pipeline proceeds to the alignment stage normally. -/
theorem C3_cardinality_validation (Ts : List Mat4) (l : List ℕ)
    (h : toTake Ts.length (flagB Ts.length (translOf Ts)) = some l) :
    (l.length ≠ 48 → canonicalize Ts = none) ∧
    (l.length = 48 → canonicalize Ts = some (alignStage Ts l)) := by
  constructor
  · intro hne
    unfold canonicalize dedupValidated
    rw [h]
    simp [checkCardinality, hne]
  · intro he
    unfold canonicalize dedupValidated
    rw [h]
    simp [checkCardinality, he]

/-- Witness for C3: the 50-pose input dedups to 49 poses and the pipeline
aborts. -/
theorem C3_witness :
    toTake Ts50.length (flagB Ts50.length (translOf Ts50)) =
      some ((List.range 50).filter fun x => x != 27) ∧
    ((List.range 50).filter fun x => x != 27).length ≠ 48 ∧
    canonicalize Ts50 = none := by
  have htt : toTake Ts50.length (flagB Ts50.length (translOf Ts50)) =
      some ((List.range 50).filter fun x => x != 27) := by
    rw [Ts50_length, toTake_congr translOf_Ts50]
    exact toTake_grid50
  have hne : ((List.range 50).filter fun x => x != 27).length ≠ 48 := by
    decide
  exact ⟨htt, hne, (C3_cardinality_validation Ts50 _ htt).1 hne⟩

/-- Claim C4 (code bug): cell 17 takes `np.mean` over every camera with no
exclusion of degenerate rays.  On a two-camera set whose second camera looks
straight down (horizontal ray component exactly zero), the code's mean
includes the degenerate camera's junk estimate (its own `t_z`; `NaN` in
numpy), so it differs from the spec-modelled mean that excludes the
degenerate camera. -/
theorem C4_degenerate_ray_not_excluded :
    (camB.1 0 2) ^ 2 + (camB.1 1 2) ^ 2 = 0 ∧
    zHeight cams4 = 13 / 2 ∧
    zHeightSpec cams4 = 3 ∧
    zHeight cams4 ≠ zHeightSpec cams4 := by
  refine ⟨?_, zHeight_cams4, zHeightSpec_cams4, ?_⟩
  · show ((1 : Mat3) 0 2) ^ 2 + ((1 : Mat3) 1 2) ^ 2 = 0
    simp [Matrix.one_apply]
  · rw [zHeight_cams4, zHeightSpec_cams4]
    norm_num

/-- Claim C10: the removal loop `to_take.remove(dup)` fails with a
`ValueError` (modelled as `none`) exactly when some index is flagged as a
duplicate of two or more distinct lower indices — in particular for every
mutually-close cluster of three or more poses — and completes normally when
every index has at most one lower flagged partner. -/
theorem C10_removal_error (n : ℕ) (pts : ℕ → Vec3) :
    ((∃ j i1 i2, i1 ≠ i2 ∧ i1 < j ∧ i2 < j ∧ j < n ∧
        flaggedR n pts i1 j ∧ flaggedR n pts i2 j) →
      toTake n (flagB n pts) = none) ∧
    ((∀ j i1 i2, i1 < j → i2 < j → j < n →
        flaggedR n pts i1 j → flaggedR n pts i2 j → i1 = i2) →
      toTake n (flagB n pts) = some (keptList n (flagB n pts))) := by
  constructor
  · rintro ⟨j, i1, i2, hne, h1, h2, hj, f1, f2⟩
    exact toTake_eq_none hne h1 h2 hj (flagB_iff.2 f1) (flagB_iff.2 f2)
  · intro hle
    exact toTake_eq_keptList fun j i1 i2 a b c d e =>
      hle j i1 i2 a b c (flagB_iff.1 d) (flagB_iff.1 e)

/-- Witness for C10: the 4-point input whose first three points coincide
makes the removal loop fail. -/
theorem C10_witness :
    flaggedR 4 (ptsZ quad4) 0 2 ∧ flaggedR 4 (ptsZ quad4) 1 2 ∧
    toTake 4 (flagB 4 (ptsZ quad4)) = none :=
  ⟨flag_quad4_02, flag_quad4_12,
    (C10_removal_error 4 (ptsZ quad4)).1
      ⟨2, 0, 1, by norm_num, by norm_num, by norm_num, by norm_num,
        flag_quad4_02, flag_quad4_12⟩⟩

/-- Claim C9: the reference ring of cell 9 has 24 points at 15-degree
(`pi/12`) increments, lying in the XY-plane on the unit circle centered at
the origin, traversed clockwise from angle 0: point `k` is
`(cos(-(k * pi/12)), sin(-(k * pi/12)), 0)` and the angles strictly
decrease. -/
theorem C9_reference_ring :
    expectedRef.length = 24 ∧
    (∀ k, k < 24 → expectedRef.getD k (fun _ => 0) =
      ![Real.cos (-((k : ℝ) * (Real.pi / 12))),
        Real.sin (-((k : ℝ) * (Real.pi / 12))), 0]) ∧
    (∀ k, k < 24 →
      (expectedRef.getD k (fun _ => 0)) 2 = 0 ∧
      ((expectedRef.getD k (fun _ => 0)) 0) ^ 2 +
        ((expectedRef.getD k (fun _ => 0)) 1) ^ 2 = 1) ∧
    (∀ k : ℕ, -(((k + 1 : ℕ) : ℝ) * (Real.pi / 12)) <
      -((k : ℝ) * (Real.pi / 12))) := by
  refine ⟨expectedRef_length, fun k hk => expectedRef_getD hk, ?_, ?_⟩
  · intro k hk
    rw [expectedRef_getD hk]
    constructor
    · simp
    · simp only [Matrix.cons_val_zero, Matrix.cons_val_one, Matrix.head_cons]
      exact Real.cos_sq_add_sin_sq _
  · intro k
    have hpi : 0 < Real.pi := Real.pi_pos
    push_cast
    nlinarith [hpi]

/-- Witness for C9 at `k = 3`. -/
theorem C9_witness :
    (3 : ℕ) < 24 ∧
    expectedRef.getD 3 (fun _ => 0) =
      ![Real.cos (-((3 : ℕ) * (Real.pi / 12))),
        Real.sin (-((3 : ℕ) * (Real.pi / 12))), 0] :=
  ⟨by norm_num, C9_reference_ring.2.1 3 (by norm_num)⟩

/-- Claim C5, counterexample: a proper rotation camera whose viewing ray
passes through `(1, 2, 3)` — a convergence point off the vertical axis — has
per-camera height estimate 2, not 3: the code estimates the height where the
ray passes nearest the z-axis, which recovers the subject height only for
subjects on the vertical axis. -/
theorem C5_counterexample :
    (camC.1)ᵀ * camC.1 = 1 ∧
    camC.1.det = 1 ∧
    camC.2 + Real.sqrt 2 • (fun i => camC.1 i 2) = ![1, 2, 3] ∧
    camHeight camC.1 camC.2 = 2 ∧
    (2 : ℝ) ≠ 3 := by
  have hhalf : Real.sqrt 2 / 2 * (Real.sqrt 2 / 2) = 1 / 2 := by
    rw [div_mul_div_comm, sqrt2_mul_self]
    norm_num
  refine ⟨?_, ?_, ?_, camHeight_camC, by norm_num⟩
  · ext a b
    fin_cases a <;> fin_cases b <;>
      simp [camC, Matrix.mul_apply, Fin.sum_univ_three,
        Matrix.transpose_apply, Matrix.one_apply, Matrix.vecHead,
        Matrix.vecTail] <;>
      nlinarith [hhalf]
  · rw [Matrix.det_fin_three]
    simp [camC, Matrix.vecHead, Matrix.vecTail]
    nlinarith [hhalf]
  · funext i
    fin_cases i <;>
      simp [camC, Matrix.vecHead, Matrix.vecTail] <;>
      nlinarith [sqrt2_mul_self]

/-- Claim C5, amended: when every camera ray passes through a common point
`(0, 0, h)` on the vertical axis (and has nonzero horizontal ray component),
every per-camera estimate equals `h`, the averaged `z_height` equals `h`, and
after the vertical re-centering `ts_new[:, 2] -= z_height` the subject point
maps to the origin. -/
theorem C5_roi_axis_recovery (cams : List (Mat3 × Vec3)) (h : ℝ)
    (hne : cams ≠ [])
    (hcams : ∀ c ∈ cams, c.1 0 2 ≠ 0 ∧ ∃ lam : ℝ,
      c.2 0 + lam * c.1 0 2 = 0 ∧ c.2 1 + lam * c.1 1 2 = 0 ∧
      c.2 2 + lam * c.1 2 2 = h) :
    (∀ c ∈ cams, camHeight c.1 c.2 = h) ∧ zHeight cams = h ∧
    recenterZ (zHeight cams) ![0, 0, h] = 0 := by
  have hall : ∀ c ∈ cams, camHeight c.1 c.2 = h := by
    intro c hc
    obtain ⟨hrx, lam, h0, h1, h2⟩ := hcams c hc
    exact camHeight_axis hrx h0 h1 h2
  have hz := zHeight_const hne hall
  refine ⟨hall, hz, ?_⟩
  rw [hz]
  unfold recenterZ
  funext i
  fin_cases i <;> simp [Matrix.vecHead, Matrix.vecTail]

/-- Witness for C5 with the single 45-degree camera through `(0, 0, 3)`. -/
theorem C5_witness :
    ([camA] : List (Mat3 × Vec3)) ≠ [] ∧
    (camA.1 0 2 ≠ 0 ∧ camA.2 0 + Real.sqrt 2 * camA.1 0 2 = 0 ∧
      camA.2 1 + Real.sqrt 2 * camA.1 1 2 = 0 ∧
      camA.2 2 + Real.sqrt 2 * camA.1 2 2 = 3) ∧
    ((∀ c ∈ [camA], camHeight c.1 c.2 = 3) ∧ zHeight [camA] = 3 ∧
      recenterZ (zHeight [camA]) ![0, 0, 3] = 0) := by
  have hconds : camA.1 0 2 ≠ 0 ∧ camA.2 0 + Real.sqrt 2 * camA.1 0 2 = 0 ∧
      camA.2 1 + Real.sqrt 2 * camA.1 1 2 = 0 ∧
      camA.2 2 + Real.sqrt 2 * camA.1 2 2 = 3 := by
    refine ⟨sqrt2_half_ne, ?_, ?_, ?_⟩
    · show (-1 : ℝ) + Real.sqrt 2 * (Real.sqrt 2 / 2) = 0
      rw [← mul_div_assoc, sqrt2_mul_self]
      norm_num
    · show (0 : ℝ) + Real.sqrt 2 * 0 = 0
      ring
    · show (2 : ℝ) + Real.sqrt 2 * (Real.sqrt 2 / 2) = 3
      rw [← mul_div_assoc, sqrt2_mul_self]
      norm_num
  refine ⟨by simp, hconds, ?_⟩
  apply C5_roi_axis_recovery [camA] 3 (by simp)
  intro c hc
  rw [List.mem_singleton] at hc
  subst hc
  exact ⟨hconds.1, Real.sqrt 2, hconds.2.1, hconds.2.2.1, hconds.2.2.2⟩

/-- Claim C6: the rescale of cell 20 multiplies every translation by the
uniform factor `0.5 / max(radius*cx/fx, radius*cy/fy)` with `radius = 1`,
leaves every rotation block unchanged, and maps the defining frustum edge to
exactly 0.5. -/
theorem C6_rescale (fx fy cx cy : ℝ) (hfx : 0 < fx) (hfy : 0 < fy)
    (hcx : 0 < cx) (hcy : 0 < cy) (cams : List (Mat3 × Vec3)) :
    ((rescaleAll (scaleFactor fx fy cx cy) cams).map Prod.fst =
        cams.map Prod.fst) ∧
    ((rescaleAll (scaleFactor fx fy cx cy) cams).map Prod.snd =
        cams.map fun c => scaleFactor fx fy cx cy • c.2) ∧
    (∀ c ∈ cams, (c.1, scaleFactor fx fy cx cy • c.2) ∈
        rescaleAll (scaleFactor fx fy cx cy) cams) ∧
    scaleFactor fx fy cx cy *
        max (fovRadius * cx / fx) (fovRadius * cy / fy) = 0.5 ∧
    0 < scaleFactor fx fy cx cy := by
  have hmax : 0 < max (fovRadius * cx / fx) (fovRadius * cy / fy) := by
    apply lt_max_of_lt_left
    unfold fovRadius
    positivity
  refine ⟨?_, ?_, ?_, ?_, ?_⟩
  · unfold rescaleAll
    rw [List.map_map]
    rfl
  · unfold rescaleAll
    rw [List.map_map]
    rfl
  · intro c hc
    exact List.mem_map_of_mem _ hc
  · unfold scaleFactor
    rw [div_mul_cancel₀ _ hmax.ne']
  · unfold scaleFactor
    exact div_pos (by norm_num) hmax

/-- Witness for C6 with `fx = fy = 100`, `cx = 60`, `cy = 40`. -/
theorem C6_witness :
    (0 : ℝ) < 100 ∧ (0 : ℝ) < 60 ∧ (0 : ℝ) < 40 ∧
    scaleFactor 100 100 60 40 *
        max (fovRadius * 60 / 100) (fovRadius * 40 / 100) = 0.5 ∧
    0 < scaleFactor 100 100 60 40 := by
  have h := C6_rescale 100 100 60 40 (by norm_num) (by norm_num)
    (by norm_num) (by norm_num) []
  exact ⟨by norm_num, by norm_num, by norm_num, h.2.2.2.1, h.2.2.2.2⟩

/-! ## Claim C7: the big-circle selection -/

theorem getD_mem_of_lt {tk : List ℕ} {i : ℕ} (hi : i < tk.length) :
    tk.getD i 0 ∈ tk := by
  rw [List.getD_eq_getElem _ _ hi]
  exact List.getElem_mem hi

theorem getD_ne_of_nodup {tk : List ℕ} (hnd : tk.Nodup) {i j : ℕ}
    (hi : i < tk.length) (hj : j < tk.length) (hij : i ≠ j) :
    tk.getD i 0 ≠ tk.getD j 0 := by
  rw [List.getD_eq_getElem _ _ hi, List.getD_eq_getElem _ _ hj]
  intro hEq
  exact hij (hnd.getElem_inj_iff.1 hEq)

theorem take_ne_drop {tk : List ℕ} (hnd : tk.Nodup) (hlen : tk.length = 48) :
    tk.take 24 ≠ tk.drop 24 := by
  intro hEq
  have hA : (tk.take 24).getD 0 0 = tk.getD 0 0 := by
    rw [List.getD_eq_getElem _ _ (by simp [hlen] : 0 < (tk.take 24).length),
      List.getD_eq_getElem _ _ (by omega : 0 < tk.length)]
    simp
  have hB : (tk.drop 24).getD 0 0 = tk.getD 24 0 := by
    rw [List.getD_eq_getElem _ _ (by simp [hlen] : 0 < (tk.drop 24).length),
      List.getD_eq_getElem _ _ (by omega : 24 < tk.length)]
    simp
  have h00 : tk.getD 0 0 = tk.getD 24 0 := by
    rw [← hA, hEq, hB]
  exact getD_ne_of_nodup hnd (show 0 < tk.length by omega)
    (show 24 < tk.length by omega) (by norm_num) h00

/-- Claim C7: for any deduplicated 48-index list whose first 24 entries index
points on a circle of radius `r1` and whose last 24 entries index points on a
concentric circle of radius `r2` (same direction pattern `u`), cell 9 selects
the first group exactly when `r2 < r1`; the nearest-neighbor spacings of the
two groups are `r1` and `r2` times the spacing of the pattern, so the first
group is selected exactly when its nearest-neighbor spacing is larger; and
the choice is a deterministic function of the input. -/
theorem C7_big_circle (n : ℕ) (pts : ℕ → Vec3) (tk : List ℕ)
    (hlen : tk.length = 48) (hnd : tk.Nodup) (hmem : ∀ x ∈ tk, x < n)
    (c : Vec3) (r1 r2 : ℝ) (u : Fin 24 → Vec3)
    (hr1 : 0 < r1) (hr2 : 0 < r2)
    (hu : Function.Injective u)
    (h1 : ∀ k : Fin 24, pts (tk.getD (k : ℕ) 0) = c + r1 • u k)
    (h2 : ∀ k : Fin 24, pts (tk.getD (24 + (k : ℕ)) 0) = c + r2 • u k) :
    (bigCircle n pts tk = if r2 < r1 then tk.take 24 else tk.drop 24) ∧
    nnSpacing (fun k => pts (tk.getD (k : ℕ) 0)) = r1 * nnSpacing u ∧
    nnSpacing (fun k => pts (tk.getD (24 + (k : ℕ)) 0)) = r2 * nnSpacing u ∧
    (bigCircle n pts tk = tk.take 24 ↔
      nnSpacing (fun k => pts (tk.getD (24 + (k : ℕ)) 0)) <
        nnSpacing (fun k => pts (tk.getD (k : ℕ) 0))) ∧
    (∀ pts2 tk2, pts2 = pts → tk2 = tk →
      bigCircle n pts2 tk2 = bigCircle n pts tk) := by
  have hu011 : u 0 ≠ u 11 := fun hEq => absurd (hu hEq) (by decide)
  have hp0 : pts (tk.getD 0 0) = c + r1 • u 0 := h1 0
  have hp11 : pts (tk.getD 11 0) = c + r1 • u 11 := h1 11
  have hp24 : pts (tk.getD 24 0) = c + r2 • u 0 := h2 0
  have hp35 : pts (tk.getD 35 0) = c + r2 • u 11 := h2 11
  have hpts : pts (tk.getD 0 0) ≠ pts (tk.getD 11 0) := by
    rw [hp0, hp11]
    intro hcontra
    exact hu011 ((smul_right_inj hr1.ne').1 (add_left_cancel hcontra))
  have hm0 : tk.getD 0 0 < n :=
    hmem _ (getD_mem_of_lt (show 0 < tk.length by omega))
  have hm11 : tk.getD 11 0 < n :=
    hmem _ (getD_mem_of_lt (show 11 < tk.length by omega))
  have hmax : 0 < maxDist n pts := maxDist_pos hm0 hm11 hpts
  have hd1 : dist3 (pts (tk.getD 0 0)) (pts (tk.getD 11 0)) =
      r1 * dist3 (u 0) (u 11) := by
    rw [hp0, hp11]
    exact dist3_smul_add c hr1.le _ _
  have hd2 : dist3 (pts (tk.getD 24 0)) (pts (tk.getD 35 0)) =
      r2 * dist3 (u 0) (u 11) := by
    rw [hp24, hp35]
    exact dist3_smul_add c hr2.le _ _
  have hne011 : tk.getD 0 0 ≠ tk.getD 11 0 :=
    getD_ne_of_nodup hnd (show 0 < tk.length by omega)
      (show 11 < tk.length by omega) (by norm_num)
  have hne2435 : tk.getD 24 0 ≠ tk.getD 35 0 :=
    getD_ne_of_nodup hnd (show 24 < tk.length by omega)
      (show 35 < tk.length by omega) (by norm_num)
  have hcond : (normDist n pts (tk.getD 0 0) (tk.getD 11 0) >
      normDist n pts (tk.getD 24 0) (tk.getD 35 0)) ↔ r2 < r1 := by
    rw [normDist_gt_iff hne011 hne2435 hmax, hd1, hd2]
    exact mul_lt_mul_right (dist3_pos hu011)
  have hpart1 : bigCircle n pts tk =
      if r2 < r1 then tk.take 24 else tk.drop 24 := by
    unfold bigCircle
    by_cases hc : r2 < r1
    · rw [if_pos (hcond.2 hc), if_pos hc]
    · rw [if_neg (fun hgt => hc (hcond.1 hgt)), if_neg hc]
  have hpart2 : nnSpacing (fun k => pts (tk.getD (k : ℕ) 0)) =
      r1 * nnSpacing u := by
    rw [funext h1]
    exact nnSpacing_smul c hr1.le u
  have hpart3 : nnSpacing (fun k => pts (tk.getD (24 + (k : ℕ)) 0)) =
      r2 * nnSpacing u := by
    rw [funext h2]
    exact nnSpacing_smul c hr2.le u
  refine ⟨hpart1, hpart2, hpart3, ?_, fun pts2 tk2 hp ht => by rw [hp, ht]⟩
  rw [hpart2, hpart3]
  constructor
  · intro hEq
    rw [hpart1] at hEq
    by_cases hc : r2 < r1
    · exact (mul_lt_mul_right (nnSpacing_pos hu)).2 hc
    · rw [if_neg hc] at hEq
      exact absurd hEq.symm (take_ne_drop hnd hlen)
  · intro hlt
    have hc : r2 < r1 := (mul_lt_mul_right (nnSpacing_pos hu)).1 hlt
    rw [hpart1, if_pos hc]

/-- Witness for C7: forty-eight points on two concentric groups with radii 2
and 1; the selection picks the first 24 indices, and their nearest-neighbor
spacing is the larger one. -/
theorem C7_witness :
    bigCircle 48 pw (List.range 48) = (List.range 48).take 24 ∧
    nnSpacing (fun k : Fin 24 => pw ((List.range 48).getD (24 + (k : ℕ)) 0)) <
      nnSpacing (fun k : Fin 24 => pw ((List.range 48).getD (k : ℕ) 0)) := by
  have hlen : (List.range 48).length = 48 := by simp
  have hnd : (List.range 48).Nodup := List.nodup_range 48
  have hmem : ∀ x ∈ List.range 48, x < 48 := fun x hx => List.mem_range.1 hx
  have hu : Function.Injective (fun k : Fin 24 => uwN (k : ℕ)) := by
    intro a b hab
    have h0 : ((a : ℕ) : ℝ) = ((b : ℕ) : ℝ) := by
      have := congrFun hab 0
      simpa [uwN] using this
    exact Fin.ext (Nat.cast_inj.1 h0)
  have h1 : ∀ k : Fin 24, pw ((List.range 48).getD (k : ℕ) 0) =
      0 + (2 : ℝ) • uwN (k : ℕ) := by
    intro k
    have hk : (k : ℕ) < 48 := by omega
    rw [List.getD_eq_getElem _ _ (by simpa using hk), List.getElem_range,
      pw, if_pos k.isLt, zero_add]
  have h2 : ∀ k : Fin 24, pw ((List.range 48).getD (24 + (k : ℕ)) 0) =
      0 + (1 : ℝ) • uwN (k : ℕ) := by
    intro k
    have hk : 24 + (k : ℕ) < 48 := by omega
    rw [List.getD_eq_getElem _ _ (by simpa using hk), List.getElem_range,
      pw, if_neg (by omega), zero_add, one_smul]
    have hsub : 24 + (k : ℕ) - 24 = (k : ℕ) := by omega
    rw [hsub]
  have h := C7_big_circle 48 pw (List.range 48) hlen hnd hmem 0 2 1
    (fun k : Fin 24 => uwN (k : ℕ)) (by norm_num) (by norm_num) hu h1 h2
  have hsel : bigCircle 48 pw (List.range 48) = (List.range 48).take 24 := by
    rw [h.1, if_pos (by norm_num : (1 : ℝ) < 2)]
  exact ⟨hsel, h.2.2.2.1.1 hsel⟩

/-- Claim C8 (the fit itself is modelled from the spec, its source being
absent from the snapshot): for any scale `s > 0`, proper rotation `R`,
translation `t`, and source set with three non-collinear points, every result
of the closed-form similarity fit of `s R P + t` against `P` is exactly
`(s, R, t)`, and it attains zero least-squares residual — the exact optimum
for the index-paired correspondence. -/
theorem C8_fit_similarity_roundtrip {m : ℕ} (P : Fin m → Vec3) (s₀ : ℝ)
    (R₀ : Mat3) (t₀ : Vec3) (hs : 0 < s₀) (hR : IsOrtho3 R₀)
    (hdet : R₀.det = 1)
    (hnc : ∃ i j k : Fin m, ¬Collinear ℝ ({P i, P j, P k} : Set Vec3))
    (out : ℝ × Mat3 × Vec3)
    (hout : fitTriple m P (fun i => simMap s₀ R₀ t₀ (P i)) out) :
    out = (s₀, R₀, t₀) ∧
    fitResidual m P (fun i => simMap s₀ R₀ t₀ (P i)) out = 0 := by
  have h1 := fitTriple_roundtrip P hs hR hdet hnc hout
  refine ⟨h1, ?_⟩
  rw [h1]
  unfold fitResidual simMap
  apply Finset.sum_eq_zero
  intro i hi
  have hzero : (s₀, R₀, t₀).1 • (s₀, R₀, t₀).2.1.mulVec (P i) +
      (s₀, R₀, t₀).2.2 - (s₀ • R₀.mulVec (P i) + t₀) = 0 := by
    show s₀ • R₀.mulVec (P i) + t₀ - (s₀ • R₀.mulVec (P i) + t₀) = 0
    abel
  rw [hzero]
  unfold sqNorm3
  simp

/-- Witness for C8 on the four planar points scaled by two. -/
theorem C8_witness :
    (0 : ℝ) < 2 ∧ IsOrtho3 (1 : Mat3) ∧ (1 : Mat3).det = 1 ∧
    (¬Collinear ℝ ({P4 0, P4 2, P4 3} : Set Vec3)) ∧
    fitTriple 4 P4 (fun i => simMap 2 1 0 (P4 i)) (2, 1, 0) ∧
    (((2 : ℝ), (1 : Mat3), (0 : Vec3)) = (2, 1, 0) ∧
      fitResidual 4 P4 (fun i => simMap 2 1 0 (P4 i)) (2, 1, 0) = 0) := by
  have hortho : IsOrtho3 (1 : Mat3) := by
    show (1 : Mat3)ᵀ * 1 = 1
    rw [Matrix.transpose_one, Matrix.one_mul]
  refine ⟨by norm_num, hortho, Matrix.det_one, P4_noncollinear,
    fitTriple_P4, ?_⟩
  exact C8_fit_similarity_roundtrip P4 2 1 0 (by norm_num) hortho
    Matrix.det_one ⟨0, 2, 3, P4_noncollinear⟩ (2, 1, 0) fitTriple_P4

end Canon

end
